import Mathlib

/-!
# Verification of the LEMON catalog / XML persistence core

A shallow embedding of the LEMON repository's persistence core:

* `src/xmlparse.py` — `XMLOffset`, `XMLOffsetFile`, `CandidateAnnuli`
  (XML round-trip store for image offsets and photometric calibration
  candidates), embedded here together with the parts of the Python
  standard library it relies on (`time.gmtime`, `time.asctime`,
  `time.strptime`, `calendar.timegm`, decimal string conversion).
* The `astromatic` module (`Pixel`, `Star`, `Catalog`) is not part of the
  source tree; only its unit tests are.  Where a claim depends on it the
  definitions below are modelled from the specification and are marked
  `Modelled from the spec:` in their doc comments.

Strings are embedded as `List Char`; Python `float` values are embedded
as the rational numbers they denote (every IEEE double is a dyadic
rational, hence has a finite decimal expansion); Unix timestamps as
natural numbers (seconds after the epoch, as documented in
`XMLOffset.__init__`).
-/

/-- Strings of the embedding: plain lists of characters. -/
abbrev Str : Type := List Char

/-! ## Digits and decimal integers

`str(n)` / `int(s)` for natural numbers, together with the digit
machinery shared by the timestamp and float formats. -/

/-- The character of a decimal digit (`0 ≤ d ≤ 9` in all uses). -/
def digCh (d : Nat) : Char := Char.ofNat (48 + d)

/-- The numeric value of a decimal digit character. -/
def chVal (c : Char) : Nat := c.toNat - 48

/-- Is `c` one of `'0'..'9'`? -/
def isDig (c : Char) : Bool := 48 ≤ c.toNat && c.toNat ≤ 57

/-- Little-endian decimal digits of `n` (empty for `0`), with explicit
fuel so that the kernel can evaluate it. -/
def natDigitsFuel : Nat → Nat → List Nat
  | 0, _ => []
  | fuel + 1, n => if n = 0 then [] else n % 10 :: natDigitsFuel fuel (n / 10)

/-- Little-endian decimal digits of `n`. -/
def natDigits (n : Nat) : List Nat := natDigitsFuel (n + 1) n

/-- Value of a little-endian decimal digit list. -/
def ofDigitsNat : List Nat → Nat
  | [] => 0
  | d :: ds => d + 10 * ofDigitsNat ds

/-- `str(n)` for a natural number: most significant digit first. -/
def natStr (n : Nat) : Str :=
  if n = 0 then ['0'] else (natDigits n).reverse.map digCh

/-- `int(s)` for a non-empty all-digit string (Python `int` raises
otherwise, embedded as `none`). -/
def parseNatStr (s : Str) : Option Nat :=
  if s ≠ [] ∧ s.all isDig then some (ofDigitsNat ((s.map chVal).reverse)) else none

theorem natDigitsFuel_congr : ∀ f₁ f₂ n, n < f₁ → n < f₂ →
    natDigitsFuel f₁ n = natDigitsFuel f₂ n := by
  intro f₁
  induction f₁ with
  | zero => intro f₂ n h; omega
  | succ f ih =>
    intro f₂ n h₁ h₂
    match f₂, h₂ with
    | f₂ + 1, h₂ =>
      simp only [natDigitsFuel]
      by_cases hn : n = 0
      · simp [hn]
      · simp only [hn, if_false]
        have hlt : n / 10 < n := Nat.div_lt_self (Nat.pos_of_ne_zero hn) (by norm_num)
        rw [ih f₂ (n / 10) (by omega) (by omega)]

theorem natDigitsFuel_succ (fuel n : Nat) (h : n ≠ 0) :
    natDigitsFuel (fuel + 1) n = n % 10 :: natDigitsFuel fuel (n / 10) := by
  simp [natDigitsFuel, h]

/-- Unfolding lemma for `natDigits` at a positive argument. -/
theorem natDigits_pos {n : Nat} (h : n ≠ 0) :
    natDigits n = n % 10 :: natDigits (n / 10) := by
  have hlt : n / 10 < n := Nat.div_lt_self (Nat.pos_of_ne_zero h) (by norm_num)
  show natDigitsFuel (n + 1) n = n % 10 :: natDigitsFuel (n / 10 + 1) (n / 10)
  rw [natDigitsFuel_succ n n h]
  exact congrArg _ (natDigitsFuel_congr n (n / 10 + 1) (n / 10) hlt (by omega))

theorem ofDigitsNat_natDigits (n : Nat) : ofDigitsNat (natDigits n) = n := by
  induction n using Nat.strong_induction_on with
  | _ n ih =>
    by_cases hn : n = 0
    · simp [hn, natDigits, natDigitsFuel, ofDigitsNat]
    · rw [natDigits_pos hn]
      simp only [ofDigitsNat]
      have hlt : n / 10 < n := Nat.div_lt_self (Nat.pos_of_ne_zero hn) (by norm_num)
      rw [ih (n / 10) hlt]
      omega

theorem natDigits_lt_ten : ∀ n, ∀ d ∈ natDigits n, d < 10 := by
  intro n
  induction n using Nat.strong_induction_on with
  | _ n ih =>
    intro d hd
    by_cases hn : n = 0
    · simp [hn, natDigits, natDigitsFuel] at hd
    · rw [natDigits_pos hn] at hd
      rcases List.mem_cons.mp hd with rfl | h2
      · omega
      · exact ih (n / 10) (Nat.div_lt_self (Nat.pos_of_ne_zero hn) (by norm_num)) d h2

theorem chVal_digCh {d : Nat} (h : d < 10) : chVal (digCh d) = d := by
  interval_cases d <;> decide

theorem isDig_digCh {d : Nat} (h : d < 10) : isDig (digCh d) = true := by
  interval_cases d <;> decide

theorem digCh_ne_space {d : Nat} (h : d < 10) : digCh d ≠ ' ' := by
  interval_cases d <;> decide

theorem digCh_ne_colon {d : Nat} (h : d < 10) : digCh d ≠ ':' := by
  interval_cases d <;> decide

theorem natStr_ne_nil (n : Nat) : natStr n ≠ [] := by
  by_cases hn : n = 0
  · simp [hn, natStr]
  · simp only [natStr, hn, if_false]
    rw [natDigits_pos hn]
    simp

theorem natStr_all_digits (n : Nat) : ∀ c ∈ natStr n, isDig c = true := by
  intro c hc
  by_cases hn : n = 0
  · simp [hn, natStr] at hc; subst hc; decide
  · simp only [natStr, hn, if_false, List.mem_map, List.mem_reverse] at hc
    obtain ⟨d, hd, rfl⟩ := hc
    exact isDig_digCh (natDigits_lt_ten n d hd)

theorem natStr_no_space (n : Nat) : ∀ c ∈ natStr n, c ≠ ' ' := by
  intro c hc
  have := natStr_all_digits n c hc
  intro h; subst h; simp [isDig] at this

theorem natStr_no_colon (n : Nat) : ∀ c ∈ natStr n, c ≠ ':' := by
  intro c hc
  have := natStr_all_digits n c hc
  intro h; subst h; simp [isDig] at this

theorem map_chVal_natStr (n : Nat) (h : n ≠ 0) :
    (natStr n).map chVal = (natDigits n).reverse := by
  simp only [natStr, h, if_false, List.map_map]
  conv_rhs => rw [← List.map_id ((natDigits n).reverse)]
  apply List.map_congr_left
  intro d hd
  simp only [Function.comp_apply, id_eq]
  exact chVal_digCh (natDigits_lt_ten n d (List.mem_reverse.mp hd))

theorem parseNatStr_natStr (n : Nat) : parseNatStr (natStr n) = some n := by
  by_cases hn : n = 0
  · subst hn; decide
  · simp only [parseNatStr]
    rw [if_pos ⟨natStr_ne_nil n, by rw [List.all_eq_true]; exact natStr_all_digits n⟩]
    rw [map_chVal_natStr n hn, List.reverse_reverse, ofDigitsNat_natDigits]

/-! ## Tokenisation

`time.strptime` compiles literal whitespace in the format string to `\s+`,
so the timestamp string is effectively split into whitespace-separated
tokens; a separate splitter handles the `:`-separated time-of-day. -/

/-- Split on spaces, merging runs (the `\s+` behaviour); `acc` is the
current token being read, in reverse. -/
def splitWsAux : Str → Str → List Str
  | [], acc => if acc = [] then [] else [acc.reverse]
  | c :: rest, acc =>
    if c = ' ' then
      if acc = [] then splitWsAux rest [] else acc.reverse :: splitWsAux rest []
    else splitWsAux rest (c :: acc)

/-- Whitespace tokenisation of a string. -/
def splitWs (s : Str) : List Str := splitWsAux s []

/-- Split on a single separator character, not merging runs. -/
def splitChAux (sep : Char) : Str → Str → List Str
  | [], acc => [acc.reverse]
  | c :: rest, acc =>
    if c = sep then acc.reverse :: splitChAux sep rest []
    else splitChAux sep rest (c :: acc)

/-- Separator-character split of a string (e.g. `"hh:mm:ss"` on `':'`). -/
def splitCh (sep : Char) (s : Str) : List Str := splitChAux sep s []

theorem splitWsAux_word : ∀ (w s acc : Str), (∀ c ∈ w, c ≠ ' ') →
    splitWsAux (w ++ s) acc = splitWsAux s (w.reverse ++ acc) := by
  intro w
  induction w with
  | nil => intro s acc _; simp
  | cons c cs ih =>
    intro s acc hw
    have hc : c ≠ ' ' := hw c (by simp)
    rw [List.cons_append]
    rw [show splitWsAux (c :: (cs ++ s)) acc = splitWsAux (cs ++ s) (c :: acc) from by
      simp [splitWsAux, hc]]
    rw [ih s (c :: acc) (fun x hx => hw x (by simp [hx]))]
    simp

theorem splitWs_token (w rest : Str) (hne : w ≠ []) (hw : ∀ c ∈ w, c ≠ ' ') :
    splitWs (w ++ ' ' :: rest) = w :: splitWs rest := by
  show splitWsAux (w ++ ' ' :: rest) [] = w :: splitWsAux rest []
  rw [splitWsAux_word w (' ' :: rest) [] hw]
  have hrev : w.reverse ++ [] ≠ [] := by simpa using hne
  simp only [splitWsAux, if_pos rfl, hrev, if_false]
  simp

theorem splitWs_space (s : Str) : splitWs (' ' :: s) = splitWs s := by
  show splitWsAux (' ' :: s) [] = splitWsAux s []
  simp [splitWsAux]

theorem splitWs_last (w : Str) (hne : w ≠ []) (hw : ∀ c ∈ w, c ≠ ' ') :
    splitWs w = [w] := by
  have h := splitWsAux_word w [] [] hw
  rw [List.append_nil] at h
  show splitWsAux w [] = [w]
  rw [h]
  have hrev : w.reverse ++ ([] : Str) ≠ [] := by simpa using hne
  simp only [splitWsAux, hrev, if_false]
  simp

theorem splitChAux_word : ∀ (sep : Char) (w s acc : Str), (∀ c ∈ w, c ≠ sep) →
    splitChAux sep (w ++ s) acc = splitChAux sep s (w.reverse ++ acc) := by
  intro sep w
  induction w with
  | nil => intro s acc _; simp
  | cons c cs ih =>
    intro s acc hw
    have hc : c ≠ sep := hw c (by simp)
    rw [List.cons_append]
    rw [show splitChAux sep (c :: (cs ++ s)) acc = splitChAux sep (cs ++ s) (c :: acc) from by
      simp [splitChAux, hc]]
    rw [ih s (c :: acc) (fun x hx => hw x (by simp [hx]))]
    simp

theorem splitCh_sep (sep : Char) (w rest : Str) (hw : ∀ c ∈ w, c ≠ sep) :
    splitCh sep (w ++ sep :: rest) = w :: splitCh sep rest := by
  show splitChAux sep (w ++ sep :: rest) [] = w :: splitChAux sep rest []
  rw [splitChAux_word sep w (sep :: rest) [] hw]
  simp [splitChAux]

theorem splitCh_last (sep : Char) (w : Str) (hw : ∀ c ∈ w, c ≠ sep) :
    splitCh sep w = [w] := by
  have h := splitChAux_word sep w [] [] hw
  rw [List.append_nil] at h
  show splitChAux sep w [] = [w]
  rw [h]
  simp [splitChAux]

/-! ## Lengths of decimal representations (for the 4-digit `%Y` field) -/

theorem natDigits_length_bounds :
    ∀ n, n ≠ 0 → 10 ^ ((natDigits n).length - 1) ≤ n ∧ n < 10 ^ (natDigits n).length := by
  intro n
  induction n using Nat.strong_induction_on with
  | _ n ih =>
    intro hn
    rw [natDigits_pos hn]
    by_cases h10 : n / 10 = 0
    · have : natDigits (n / 10) = [] := by simp [natDigits, natDigitsFuel, h10]
      rw [this]
      simp only [List.length_cons, List.length_nil]
      omega
    · have hlt : n / 10 < n := Nat.div_lt_self (Nat.pos_of_ne_zero hn) (by norm_num)
      obtain ⟨h1, h2⟩ := ih (n / 10) hlt h10
      have hpos : 0 < (natDigits (n / 10)).length := by
        rw [natDigits_pos h10]; simp
      constructor
      · have : 10 ^ ((natDigits (n / 10)).length - 1 + 1) ≤ n / 10 * 10 := by
          rw [pow_succ]; exact Nat.mul_le_mul_right 10 h1
        calc 10 ^ ((n % 10 :: natDigits (n / 10)).length - 1)
            = 10 ^ ((natDigits (n / 10)).length - 1 + 1) := by
              simp only [List.length_cons]; congr 1; omega
          _ ≤ n / 10 * 10 := this
          _ ≤ n := by omega
      · have : n / 10 * 10 + 10 ≤ 10 ^ ((natDigits (n / 10)).length + 1) := by
          rw [pow_succ]
          have := Nat.succ_le_of_lt h2
          calc n / 10 * 10 + 10 = (n / 10 + 1) * 10 := by ring
            _ ≤ 10 ^ (natDigits (n / 10)).length * 10 := Nat.mul_le_mul_right 10 this
        simp only [List.length_cons]
        omega

theorem natStr_length_four {n : Nat} (h1 : 1000 ≤ n) (h2 : n ≤ 9999) :
    (natStr n).length = 4 := by
  have hn : n ≠ 0 := by omega
  obtain ⟨hl, hu⟩ := natDigits_length_bounds n hn
  have hlen : (natDigits n).length = 4 := by
    set L := (natDigits n).length with hL
    rcases Nat.lt_or_ge L 4 with h | h
    · have : 10 ^ L ≤ 10 ^ 3 := Nat.pow_le_pow_right (by norm_num) (by omega)
      norm_num at this
      omega
    · rcases Nat.lt_or_ge 4 L with h4 | h4
      · have : 10 ^ 4 ≤ 10 ^ (L - 1) := Nat.pow_le_pow_right (by norm_num) (by omega)
        norm_num at this
        omega
      · omega
  simp [natStr, hn, hlen]

/-! ## Decimal strings for Python floats

Python floats are embedded as the rational values they denote (every
IEEE double is dyadic, so it has a finite decimal expansion).  `str(x)`
is embedded as the exact decimal expansion of that rational (shortest
exponent that makes the scaled value an integer, at least one fractional
digit, as in `str(0.5) = "0.5"`, `str(15.0) = "15.0"`); `float(s)`
parses sign, integer part and fractional part back. -/

theorem isDig_ne_special {c : Char} (h : isDig c = true) :
    c ≠ '.' ∧ c ≠ ' ' ∧ c ≠ ':' ∧ c ≠ '-' := by
  refine ⟨?_, ?_, ?_, ?_⟩ <;> (rintro rfl; revert h; decide)

theorem ofDigitsNat_append (l₁ l₂ : List Nat) :
    ofDigitsNat (l₁ ++ l₂) = ofDigitsNat l₁ + 10 ^ l₁.length * ofDigitsNat l₂ := by
  induction l₁ with
  | nil => simp [ofDigitsNat]
  | cons d ds ih =>
    have h : ofDigitsNat ((d :: ds) ++ l₂) = d + 10 * ofDigitsNat (ds ++ l₂) := rfl
    rw [h, ih, List.length_cons, pow_succ]
    show d + 10 * _ = d + 10 * ofDigitsNat ds + 10 ^ ds.length * 10 * ofDigitsNat l₂
    ring

theorem ofDigitsNat_replicate_zero (k : Nat) :
    ofDigitsNat (List.replicate k 0) = 0 := by
  induction k with
  | zero => rfl
  | succ k ih => simp [List.replicate_succ, ofDigitsNat, ih]

/-- Digit list of `n` padded with (most-significant) zeros to at least
`p + 1` digits, so that a decimal rendering with `p` fractional digits
has a non-empty integer part. -/
def padDigits (n p : Nat) : List Nat :=
  natDigits n ++ List.replicate (p + 1 - (natDigits n).length) 0

theorem padDigits_length (n p : Nat) :
    (padDigits n p).length = max (natDigits n).length (p + 1) := by
  simp only [padDigits, List.length_append, List.length_replicate]
  omega

theorem padDigits_lt_ten (n p : Nat) : ∀ d ∈ padDigits n p, d < 10 := by
  intro d hd
  rcases List.mem_append.mp hd with h | h
  · exact natDigits_lt_ten n d h
  · have := List.eq_of_mem_replicate h
    omega

theorem ofDigitsNat_padDigits (n p : Nat) : ofDigitsNat (padDigits n p) = n := by
  rw [padDigits, ofDigitsNat_append, ofDigitsNat_replicate_zero,
    ofDigitsNat_natDigits]
  ring

/-- Fixed-point decimal rendering of the integer `m` scaled down by
`10 ^ p`: sign, integer digits, `'.'`, exactly `p` fractional digits.
This is the shared core of the embeddings of `str(x)` and `'%.Nf' % x`. -/
def renderScaled (m : Int) (p : Nat) : Str :=
  (if m < 0 then ['-'] else []) ++
    ((padDigits m.natAbs p).drop p).reverse.map digCh ++
    '.' :: ((padDigits m.natAbs p).take p).reverse.map digCh

/-- `float(s)` on an unsigned decimal string: integer part, optional
fractional part. -/
def parseFloatAbs (s : Str) : Option ℚ :=
  match splitCh '.' s with
  | [ip, fp] => do
      let i ← parseNatStr ip
      let f ← parseNatStr fp
      some (((i : ℚ) * 10 ^ fp.length + (f : ℚ)) / 10 ^ fp.length)
  | [ip] => do
      let i ← parseNatStr ip
      some ((i : ℚ))
  | _ => none

/-- `float(s)`: optional leading minus sign, then unsigned decimal. -/
def parseFloatStr (s : Str) : Option ℚ :=
  if s.head? = some '-' then (parseFloatAbs s.tail).map (fun v => -v)
  else parseFloatAbs s

theorem parseNatStr_rendered (l : List Nat) (hl : ∀ d ∈ l, d < 10) (hne : l ≠ []) :
    parseNatStr (l.reverse.map digCh) = some (ofDigitsNat l) := by
  have hmap : (l.reverse.map digCh).map chVal = l.reverse := by
    rw [List.map_map]
    conv_rhs => rw [← List.map_id l.reverse]
    apply List.map_congr_left
    intro d hd
    exact chVal_digCh (hl d (List.mem_reverse.mp hd))
  simp only [parseNatStr]
  rw [if_pos]
  · rw [hmap, List.reverse_reverse]
  · constructor
    · simpa using hne
    · rw [List.all_eq_true]
      intro c hc
      simp only [List.mem_map, List.mem_reverse] at hc
      obtain ⟨d, hd, rfl⟩ := hc
      exact isDig_digCh (hl d hd)

theorem rendered_digits (l : List Nat) (hl : ∀ d ∈ l, d < 10) :
    ∀ c ∈ l.reverse.map digCh, isDig c = true := by
  intro c hc
  simp only [List.mem_map, List.mem_reverse] at hc
  obtain ⟨d, hd, rfl⟩ := hc
  exact isDig_digCh (hl d hd)

theorem parseFloatAbs_renderScaled_core (m : Int) (p : Nat) (hp : 0 < p) :
    parseFloatAbs (((padDigits m.natAbs p).drop p).reverse.map digCh ++
      '.' :: ((padDigits m.natAbs p).take p).reverse.map digCh) =
      some ((m.natAbs : ℚ) / 10 ^ p) := by
  have hdig : ∀ d ∈ padDigits m.natAbs p, d < 10 := padDigits_lt_ten _ _
  have hlen : p + 1 ≤ (padDigits m.natAbs p).length := by
    rw [padDigits_length]; omega
  have hdrop_ne : (padDigits m.natAbs p).drop p ≠ [] := by
    intro h
    have h2 := List.length_drop p (padDigits m.natAbs p)
    rw [h] at h2
    simp at h2
    omega
  have htake_len : ((padDigits m.natAbs p).take p).length = p := by
    rw [List.length_take]
    omega
  have hdropd : ∀ d ∈ (padDigits m.natAbs p).drop p, d < 10 :=
    fun d hd => hdig d (List.mem_of_mem_drop hd)
  have htaked : ∀ d ∈ (padDigits m.natAbs p).take p, d < 10 :=
    fun d hd => hdig d (List.mem_of_mem_take hd)
  have htake_ne : (padDigits m.natAbs p).take p ≠ [] := by
    intro h
    rw [h] at htake_len
    simp at htake_len
    omega
  have hsplit : splitCh '.' ((((padDigits m.natAbs p).drop p)).reverse.map digCh ++
      '.' :: (((padDigits m.natAbs p).take p)).reverse.map digCh) =
      [(((padDigits m.natAbs p).drop p)).reverse.map digCh,
       (((padDigits m.natAbs p).take p)).reverse.map digCh] := by
    rw [splitCh_sep]
    · rw [splitCh_last]
      intro c hc
      exact (isDig_ne_special (rendered_digits _ htaked c hc)).1
    · intro c hc
      exact (isDig_ne_special (rendered_digits _ hdropd c hc)).1
  simp only [parseFloatAbs, hsplit]
  rw [parseNatStr_rendered _ hdropd hdrop_ne, parseNatStr_rendered _ htaked htake_ne]
  simp only [Option.bind_eq_bind, Option.some_bind]
  congr 1
  have hlenmap : ((((padDigits m.natAbs p).take p)).reverse.map digCh).length = p := by
    rw [List.length_map, List.length_reverse, htake_len]
  rw [hlenmap]
  have hval : ofDigitsNat ((padDigits m.natAbs p).take p) +
      10 ^ p * ofDigitsNat ((padDigits m.natAbs p).drop p) = m.natAbs := by
    have h2 := ofDigitsNat_append ((padDigits m.natAbs p).take p)
      ((padDigits m.natAbs p).drop p)
    rw [List.take_append_drop, htake_len] at h2
    rw [← h2, ofDigitsNat_padDigits]
  have hcast : ((ofDigitsNat ((padDigits m.natAbs p).drop p) : ℚ)) * 10 ^ p +
      (ofDigitsNat ((padDigits m.natAbs p).take p) : ℚ) = (m.natAbs : ℚ) := by
    have h3 := congrArg (fun k : Nat => (k : ℚ)) hval
    push_cast at h3
    linarith
  rw [hcast]

theorem parseFloatStr_renderScaled (m : Int) (p : Nat) (hp : 0 < p) :
    parseFloatStr (renderScaled m p) = some ((m : ℚ) / 10 ^ p) := by
  by_cases hm : m < 0
  · simp only [renderScaled, if_pos hm, List.cons_append, List.nil_append]
    simp only [parseFloatStr, List.head?_cons, if_pos rfl, List.tail_cons]
    rw [parseFloatAbs_renderScaled_core m p hp]
    have hmq : (m : ℚ) = -(m.natAbs : ℚ) := by
      rw [Nat.cast_natAbs (α := ℚ) m, abs_of_neg hm]
      push_cast
      ring
    rw [hmq]
    simp [Option.map, neg_div]
  · simp only [renderScaled, if_neg hm, List.nil_append]
    have hdrop_ne : (padDigits m.natAbs p).drop p ≠ [] := by
      intro h
      have h2 := List.length_drop p (padDigits m.natAbs p)
      have hlen : p + 1 ≤ (padDigits m.natAbs p).length := by
        rw [padDigits_length]; omega
      rw [h] at h2
      simp at h2
      omega
    have hip_ne : (((padDigits m.natAbs p).drop p)).reverse.map digCh ≠ [] := by
      simpa using hdrop_ne
    obtain ⟨c, ip2, hcons⟩ := List.exists_cons_of_ne_nil hip_ne
    have hcdig : isDig c = true := by
      apply rendered_digits _ (fun d hd =>
        padDigits_lt_ten m.natAbs p d (List.mem_of_mem_drop hd))
      rw [hcons]
      simp
    rw [hcons, List.cons_append]
    have hhead : ¬((c :: (ip2 ++
        '.' :: ((padDigits m.natAbs p).take p).reverse.map digCh) : Str).head? =
        some '-') := by
      simp only [List.head?_cons, Option.some_inj]
      intro h
      rw [h] at hcdig
      exact absurd hcdig (by decide)
    simp only [parseFloatStr, if_neg hhead]
    rw [← List.cons_append, ← hcons]
    rw [parseFloatAbs_renderScaled_core m p hp]
    have hmq : (m : ℚ) = (m.natAbs : ℚ) := by
      rw [Nat.cast_natAbs (α := ℚ) m, abs_of_nonneg (not_lt.mp hm)]
    rw [hmq]

/-- Search for the least exponent `k` in `[k₀, k₀ + bound)` with
`den ∣ 10 ^ k` (used to pick the number of fractional digits). -/
def findKAux (den : Nat) : Nat → Nat → Option Nat
  | _, 0 => none
  | k, b + 1 => if den ∣ 10 ^ k then some k else findKAux den (k + 1) b

/-- Least `k ≤ den` with `den ∣ 10 ^ k` (`0` if there is none, which
cannot happen for the denominator of a Python float). -/
def decExp (den : Nat) : Nat := (findKAux den 0 (den + 1)).getD 0

/-- A rational that is the exact value of a Python float: its denominator
is a power of two, hence divides `10 ^ den`.  (Stated in this slightly
indirect divisibility form so that it is decidable and closed under the
decimal denominators produced by parsing.) -/
def FloatRepresentable (q : ℚ) : Prop := (q.den : Nat) ∣ 10 ^ q.den

instance (q : ℚ) : Decidable (FloatRepresentable q) := by
  unfold FloatRepresentable; infer_instance

/-- `str(x)` for a Python float embedded as the rational `q`: the exact
decimal expansion of `q`, with at least one fractional digit
(`str(15.0) = "15.0"`).  CPython prints the shortest decimal that parses
back to the same double; the embedding prints the exact expansion, which
parses back to the same rational. -/
def floatStr (q : ℚ) : Str :=
  renderScaled (q.num * ((10 ^ (max 1 (decExp q.den)) / q.den : Nat) : Int))
    (max 1 (decExp q.den))

theorem findKAux_sound (den : Nat) : ∀ b k k₀, findKAux den k b = some k₀ →
    den ∣ 10 ^ k₀ := by
  intro b
  induction b with
  | zero => intro k k₀ h; simp [findKAux] at h
  | succ b ih =>
    intro k k₀ h
    simp only [findKAux] at h
    by_cases hd : den ∣ 10 ^ k
    · rw [if_pos hd] at h
      cases h
      exact hd
    · rw [if_neg hd] at h
      exact ih (k + 1) k₀ h

theorem findKAux_complete (den : Nat) : ∀ b k j, k ≤ j → j < k + b → den ∣ 10 ^ j →
    (findKAux den k b).isSome := by
  intro b
  induction b with
  | zero => intro k j h1 h2 _; omega
  | succ b ih =>
    intro k j h1 h2 hdvd
    simp only [findKAux]
    by_cases hd : den ∣ 10 ^ k
    · rw [if_pos hd]; rfl
    · rw [if_neg hd]
      have hkj : k ≠ j := by rintro rfl; exact hd hdvd
      exact ih (k + 1) j (by omega) (by omega) hdvd

theorem decExp_dvd {den : Nat} (h : den ∣ 10 ^ den) : den ∣ 10 ^ decExp den := by
  have hsome := findKAux_complete den (den + 1) 0 den (by omega) (by omega) h
  obtain ⟨k₀, hk₀⟩ := Option.isSome_iff_exists.mp hsome
  rw [decExp, hk₀]
  exact findKAux_sound den (den + 1) 0 k₀ hk₀

theorem floatStr_roundtrip (q : ℚ) (h : FloatRepresentable q) :
    parseFloatStr (floatStr q) = some q := by
  have hden : (q.den : Nat) ∣ 10 ^ (max 1 (decExp q.den)) := by
    have h1 : (q.den : Nat) ∣ 10 ^ decExp q.den := decExp_dvd h
    exact h1.trans (pow_dvd_pow 10 (le_max_right _ _))
  rw [floatStr, parseFloatStr_renderScaled _ _ (by omega : 0 < max 1 (decExp q.den))]
  congr 1
  have hdpos : 0 < (q.den : ℚ) := by
    exact_mod_cast q.den_pos
  have hscale : ((10 ^ (max 1 (decExp q.den)) / q.den : Nat) : ℚ) * (q.den : ℚ) =
      (10 : ℚ) ^ (max 1 (decExp q.den)) := by
    have := Nat.div_mul_cancel hden
    exact_mod_cast this
  have hppos : (0 : ℚ) < 10 ^ (max 1 (decExp q.den)) := by positivity
  rw [show ((q.num * ((10 ^ (max 1 (decExp q.den)) / q.den : Nat) : Int) : Int) : ℚ) =
      (q.num : ℚ) * ((10 ^ (max 1 (decExp q.den)) / q.den : Nat) : ℚ) by
    rw [Int.cast_mul, Int.cast_natCast]]
  rw [div_eq_iff (ne_of_gt hppos)]
  rw [show (q : ℚ) * 10 ^ (max 1 (decExp q.den)) = q * ((q.den : ℚ) *
      (((10 ^ (max 1 (decExp q.den)) / q.den : Nat) : ℚ))) by rw [mul_comm ((q.den : ℚ)) _, hscale]]
  rw [← mul_assoc]
  congr 1
  rw [Rat.mul_den_eq_num]

/-! ## The UTC calendar

`XMLOffsetFile.add` formats dates with `time.asctime(time.gmtime(date))`
and `__getitem__` parses them back with
`calendar.timegm(time.strptime(date_str, "%a %b %d %H:%M:%S %Y UTC"))`.
`gmtime` is embedded as the year/month iteration used by the C library;
`timegm` as Python's closed formula over `datetime.date.toordinal`. -/

/-- `calendar.isleap` / C `__isleap`. -/
def isLeap (y : Nat) : Bool := y % 4 == 0 && (y % 100 != 0 || y % 400 == 0)

def daysInYear (y : Nat) : Nat := if isLeap y then 366 else 365

def monthLengths (leap : Bool) : List Nat :=
  [31, if leap then 29 else 28, 31, 30, 31, 30, 31, 31, 30, 31, 30, 31]

/-- Year iteration of `gmtime`: starting from year `y` with `d` days
left, step one year at a time; `fuel ≥ d + 1` suffices. -/
def yearSplitAux : Nat → Nat → Nat → Nat × Nat
  | 0, y, d => (y, d)
  | fuel + 1, y, d =>
    if d < daysInYear y then (y, d) else yearSplitAux fuel (y + 1) (d - daysInYear y)

/-- Month iteration of `gmtime` over the month-length table. -/
def monthSplitAux : Nat → Nat → List Nat → Nat × Nat
  | m, doy, [] => (m, doy + 1)
  | m, doy, len :: rest =>
    if doy < len then (m, doy + 1) else monthSplitAux (m + 1) (doy - len) rest

/-- The fields of a C `struct tm` that the offset-file timestamp format
carries (year is the full year, month is 1-based). -/
structure Tm where
  year : Nat
  mon : Nat
  mday : Nat
  hour : Nat
  minute : Nat
  second : Nat
  wday : Nat
  deriving DecidableEq, Repr

/-- The year split of `gmtime`: whole 400-year Gregorian cycles
(146097 days each) are skipped in one step, then the per-year iteration
handles the remainder (at most 401 iterations; extensionally this is the
C library's plain year loop). -/
def yearDaysSplit (days : Nat) : Nat × Nat :=
  yearSplitAux (days % 146097 / 365 + 1) (1970 + 400 * (days / 146097))
    (days % 146097)

/-- `time.gmtime` for non-negative Unix timestamps (the classic
epoch-days split followed by year and month iteration; `wday` uses
1970-01-01 being a Thursday). -/
def gmtime (t : Nat) : Tm :=
  let days := t / 86400
  let rem := t % 86400
  let ys := yearDaysSplit days
  let ms := monthSplitAux 1 ys.2 (monthLengths (isLeap ys.1))
  { year := ys.1, mon := ms.1, mday := ms.2, hour := rem / 3600,
    minute := rem % 3600 / 60, second := rem % 60, wday := (days + 4) % 7 }

/-- `_days_before_year` of `datetime`: days from 0001-01-01 to the start
of year `y`, i.e. `365 (y-1) + (y-1)/4 - (y-1)/100 + (y-1)/400`; the
subtraction is reordered to stay in `ℕ` (valid since
`(y-1)/100 ≤ (y-1)/4`). -/
def daysBeforeYear (y : Nat) : Nat :=
  365 * (y - 1) + (y - 1) / 4 + (y - 1) / 400 - (y - 1) / 100

/-- `_DAYS_BEFORE_MONTH` of `datetime` (non-leap cumulative days). -/
def DAYS_BEFORE_MONTH : List Nat :=
  [0, 31, 59, 90, 120, 151, 181, 212, 243, 273, 304, 334]

/-- `_days_before_month` of `datetime`. -/
def daysBeforeMonth (y m : Nat) : Nat :=
  DAYS_BEFORE_MONTH.getD (m - 1) 0 + (if 2 < m ∧ isLeap y then 1 else 0)

/-- `datetime.date(y, m, d).toordinal()`. -/
def toordinal (y m d : Nat) : Nat := daysBeforeYear y + daysBeforeMonth y m + d

/-- `datetime.date(1970, 1, 1).toordinal()`, precomputed as in
`calendar`. -/
def EPOCH_ORD : Nat := 719163

/-- `calendar.timegm` (on the six leading `struct_time` fields; `wday`
is ignored). -/
def timegm (tm : Tm) : Nat :=
  let days := toordinal tm.year tm.mon 1 + (tm.mday - 1) - EPOCH_ORD
  ((days * 24 + tm.hour) * 60 + tm.minute) * 60 + tm.second

theorem EPOCH_ORD_eq : EPOCH_ORD = toordinal 1970 1 1 := by decide

theorem isLeap_iff (y : Nat) : isLeap y = true ↔ (4 ∣ y ∧ ¬(100 ∣ y)) ∨ 400 ∣ y := by
  simp only [isLeap, Bool.and_eq_true, Bool.or_eq_true, beq_iff_eq, bne_iff_ne, ne_eq]
  omega

theorem daysInYear_ge (y : Nat) : 365 ≤ daysInYear y := by
  unfold daysInYear; split <;> omega

theorem daysBeforeYear_step (y : Nat) (h : 1 ≤ y) :
    daysBeforeYear (y + 1) = daysBeforeYear y + daysInYear y := by
  obtain ⟨n, rfl⟩ : ∃ n, y = n + 1 := ⟨y - 1, by omega⟩
  unfold daysBeforeYear daysInYear
  simp only [Nat.add_sub_cancel]
  have h4s := Nat.succ_div n 4
  have h100s := Nat.succ_div n 100
  have h400s := Nat.succ_div n 400
  by_cases hL : isLeap (n + 1) = true
  · rw [if_pos hL]
    rcases (isLeap_iff (n + 1)).mp hL with ⟨h4, h100⟩ | h400
    · have hn400 : ¬((400 : Nat) ∣ n + 1) := fun hx => h100 (dvd_trans (by norm_num) hx)
      rw [if_pos h4] at h4s
      rw [if_neg h100] at h100s
      rw [if_neg hn400] at h400s
      omega
    · have h100 : (100 : Nat) ∣ n + 1 := dvd_trans (by norm_num) h400
      have h4 : (4 : Nat) ∣ n + 1 := dvd_trans (by norm_num) h100
      rw [if_pos h4] at h4s
      rw [if_pos h100] at h100s
      rw [if_pos h400] at h400s
      omega
  · rw [if_neg hL]
    have hnot : ¬((4 ∣ (n + 1) ∧ ¬(100 ∣ (n + 1))) ∨ 400 ∣ (n + 1)) :=
      fun hx => hL ((isLeap_iff (n + 1)).mpr hx)
    push_neg at hnot
    obtain ⟨h1, h400⟩ := hnot
    rw [if_neg h400] at h400s
    by_cases h4 : (4 : Nat) ∣ n + 1
    · have h100 : (100 : Nat) ∣ n + 1 := h1 h4
      rw [if_pos h4] at h4s
      rw [if_pos h100] at h100s
      omega
    · have h100 : ¬((100 : Nat) ∣ n + 1) := fun hx => h4 (dvd_trans (by norm_num) hx)
      rw [if_neg h4] at h4s
      rw [if_neg h100] at h100s
      omega

theorem daysBeforeYear_mono {a b : Nat} (h : a ≤ b) :
    daysBeforeYear a ≤ daysBeforeYear b := by
  unfold daysBeforeYear
  have h4 : (a - 1) / 4 ≤ (b - 1) / 4 := Nat.div_le_div_right (by omega)
  have h100 : (a - 1) / 100 ≤ (b - 1) / 100 := Nat.div_le_div_right (by omega)
  have h400 : (a - 1) / 400 ≤ (b - 1) / 400 := Nat.div_le_div_right (by omega)
  omega

theorem yearSplitAux_spec : ∀ fuel y d, d < 365 * fuel → 1 ≤ y →
    y ≤ (yearSplitAux fuel y d).1 ∧
    (yearSplitAux fuel y d).2 < daysInYear (yearSplitAux fuel y d).1 ∧
    daysBeforeYear (yearSplitAux fuel y d).1 + (yearSplitAux fuel y d).2 =
      daysBeforeYear y + d := by
  intro fuel
  induction fuel with
  | zero => intro y d h; omega
  | succ fuel ih =>
    intro y d hd hy
    by_cases hlt : d < daysInYear y
    · simp only [yearSplitAux, if_pos hlt]
      exact ⟨le_refl y, hlt, by simp⟩
    · simp only [yearSplitAux, if_neg hlt]
      have hge := daysInYear_ge y
      have hrec := ih (y + 1) (d - daysInYear y) (by omega) (by omega)
      refine ⟨by omega, hrec.2.1, ?_⟩
      rw [hrec.2.2, daysBeforeYear_step y hy]
      omega

theorem daysBeforeYear_1970 : daysBeforeYear 1970 = 719162 := by
  norm_num [daysBeforeYear]

theorem daysBeforeYear_10000 : daysBeforeYear 10000 = 3652059 := by
  norm_num [daysBeforeYear]

theorem daysBeforeYear_400 (y : Nat) (h : 1 ≤ y) :
    daysBeforeYear (y + 400) = daysBeforeYear y + 146097 := by
  unfold daysBeforeYear
  omega

theorem yearDaysSplit_spec (days : Nat) :
    1970 ≤ (yearDaysSplit days).1 ∧
    (yearDaysSplit days).2 < daysInYear (yearDaysSplit days).1 ∧
    daysBeforeYear (yearDaysSplit days).1 + (yearDaysSplit days).2 =
      719162 + days := by
  unfold yearDaysSplit
  obtain ⟨h1, h2, h3⟩ := yearSplitAux_spec (days % 146097 / 365 + 1)
    (1970 + 400 * (days / 146097)) (days % 146097) (by omega) (by omega)
  have hera : ∀ e : Nat, daysBeforeYear (1970 + 400 * e) = 719162 + 146097 * e := by
    intro e
    induction e with
    | zero => simpa using daysBeforeYear_1970
    | succ e ih =>
      have : 1970 + 400 * (e + 1) = (1970 + 400 * e) + 400 := by ring
      rw [this, daysBeforeYear_400 _ (by omega), ih]
      ring
  rw [hera (days / 146097)] at h3
  refine ⟨by omega, h2, by omega⟩

theorem monthSplitAux_spec : ∀ (L : List Nat) (m doy : Nat), doy < L.sum →
    (∀ x ∈ L, x ≤ 31) →
    1 ≤ (monthSplitAux m doy L).2 ∧ (monthSplitAux m doy L).2 ≤ 31 ∧
    m ≤ (monthSplitAux m doy L).1 ∧ (monthSplitAux m doy L).1 < m + L.length ∧
    (L.take ((monthSplitAux m doy L).1 - m)).sum +
      ((monthSplitAux m doy L).2 - 1) = doy := by
  intro L
  induction L with
  | nil => intro m doy h _; simp at h
  | cons len rest ih =>
    intro m doy h hb
    by_cases hlt : doy < len
    · simp only [monthSplitAux, if_pos hlt]
      have hlen : len ≤ 31 := hb len (by simp)
      refine ⟨by omega, by omega, le_refl m, by simp, ?_⟩
      simp only [Nat.sub_self, List.take_zero, List.sum_nil]
      omega
    · simp only [monthSplitAux, if_neg hlt]
      have hsum : doy - len < rest.sum := by
        simp only [List.sum_cons] at h
        omega
      obtain ⟨p1, p2, p3, p4, p5⟩ :=
        ih (m + 1) (doy - len) hsum (fun x hx => hb x (by simp [hx]))
      refine ⟨p1, p2, by omega, by simp; omega, ?_⟩
      have hk : (monthSplitAux (m + 1) (doy - len) rest).1 - m =
          ((monthSplitAux (m + 1) (doy - len) rest).1 - (m + 1)) + 1 := by
        omega
      rw [hk, List.take_succ_cons, List.sum_cons]
      omega

theorem monthLengths_sum (leap : Bool) :
    (monthLengths leap).sum = if leap then 366 else 365 := by
  cases leap <;> decide

theorem monthLengths_le (leap : Bool) : ∀ x ∈ monthLengths leap, x ≤ 31 := by
  cases leap <;> decide

theorem daysBeforeMonth_eq_sum (y m : Nat) (h1 : 1 ≤ m) (h2 : m ≤ 12) :
    daysBeforeMonth y m = ((monthLengths (isLeap y)).take (m - 1)).sum := by
  cases hL : isLeap y <;> interval_cases m <;>
    simp [daysBeforeMonth, DAYS_BEFORE_MONTH, monthLengths, hL]

theorem monthSplit_spec (y doy : Nat) (h : doy < daysInYear y) :
    1 ≤ (monthSplitAux 1 doy (monthLengths (isLeap y))).1 ∧
    (monthSplitAux 1 doy (monthLengths (isLeap y))).1 ≤ 12 ∧
    1 ≤ (monthSplitAux 1 doy (monthLengths (isLeap y))).2 ∧
    (monthSplitAux 1 doy (monthLengths (isLeap y))).2 ≤ 31 ∧
    daysBeforeMonth y (monthSplitAux 1 doy (monthLengths (isLeap y))).1 +
      ((monthSplitAux 1 doy (monthLengths (isLeap y))).2 - 1) = doy := by
  have hsum : doy < (monthLengths (isLeap y)).sum := by
    rw [monthLengths_sum]
    unfold daysInYear at h
    cases hL : isLeap y <;> rw [hL] at h <;> simpa using h
  obtain ⟨p1, p2, p3, p4, p5⟩ :=
    monthSplitAux_spec (monthLengths (isLeap y)) 1 doy hsum (monthLengths_le _)
  have hlen : (monthLengths (isLeap y)).length = 12 := by
    cases isLeap y <;> decide
  rw [hlen] at p4
  refine ⟨p3, by omega, p1, p2, ?_⟩
  rw [daysBeforeMonth_eq_sum y _ p3 (by omega)]
  exact p5

/-- `calendar.timegm` inverts `time.gmtime` on the struct level. -/
theorem timegm_gmtime (t : Nat) : timegm (gmtime t) = t := by
  simp only [gmtime, timegm, toordinal, EPOCH_ORD]
  obtain ⟨hy, hdoy, heq⟩ := yearDaysSplit_spec (t / 86400)
  obtain ⟨m1, m2, d1, d2, hmon⟩ :=
    monthSplit_spec (yearDaysSplit (t / 86400)).1 (yearDaysSplit (t / 86400)).2 hdoy
  have hge : 719162 ≤ daysBeforeYear (yearDaysSplit (t / 86400)).1 := by
    rw [← daysBeforeYear_1970]
    exact daysBeforeYear_mono hy
  omega

theorem gmtime_bounds (t : Nat) :
    1970 ≤ (gmtime t).year ∧ 1 ≤ (gmtime t).mon ∧ (gmtime t).mon ≤ 12 ∧
    1 ≤ (gmtime t).mday ∧ (gmtime t).mday ≤ 31 ∧ (gmtime t).hour ≤ 23 ∧
    (gmtime t).minute ≤ 59 ∧ (gmtime t).second ≤ 59 ∧ (gmtime t).wday ≤ 6 := by
  simp only [gmtime]
  obtain ⟨hy, hdoy, heq⟩ := yearDaysSplit_spec (t / 86400)
  obtain ⟨m1, m2, d1, d2, hmon⟩ :=
    monthSplit_spec (yearDaysSplit (t / 86400)).1 (yearDaysSplit (t / 86400)).2 hdoy
  refine ⟨hy, m1, m2, d1, d2, by omega, by omega, by omega, by omega⟩

/-- Before the year 10000, i.e. while `asctime` still prints a 4-digit
year. -/
theorem gmtime_year_le (t : Nat) (h : t < 253402300800) :
    (gmtime t).year ≤ 9999 := by
  simp only [gmtime]
  obtain ⟨hy, hdoy, heq⟩ := yearDaysSplit_spec (t / 86400)
  by_contra hgt
  push_neg at hgt
  have hmono : daysBeforeYear 10000 ≤ daysBeforeYear (yearDaysSplit (t / 86400)).1 :=
    daysBeforeYear_mono (by omega)
  rw [daysBeforeYear_10000] at hmono
  have hdays : t / 86400 ≤ 2932896 := by omega
  omega

/-! ## `time.asctime` and `time.strptime`

`add` writes `"%s UTC" % time.asctime(time.gmtime(date))`;
`__getitem__` parses it back with
`time.strptime(s, "%a %b %d %H:%M:%S %Y UTC")`.  `asctime` uses the
C format `"%.3s %.3s%3d %.2d:%.2d:%.2d %d"`; CPython's `strptime`
matches `%d`/`%H`/`%M`/`%S` against 1-2 digit numbers in range, `%Y`
against exactly four digits, and literal whitespace against `\s+`. -/

def WDAY_NAMES : List Str :=
  ["Sun".data, "Mon".data, "Tue".data, "Wed".data, "Thu".data, "Fri".data, "Sat".data]

def MONTH_NAMES : List Str :=
  ["Jan".data, "Feb".data, "Mar".data, "Apr".data, "May".data, "Jun".data,
   "Jul".data, "Aug".data, "Sep".data, "Oct".data, "Nov".data, "Dec".data]

def wdayName (w : Nat) : Str := WDAY_NAMES.getD w []

def monthName (m : Nat) : Str := MONTH_NAMES.getD (m - 1) []

/-- Zero-padded two-digit field (`%.2d`). -/
def pad2 (n : Nat) : Str := if n < 10 then '0' :: natStr n else natStr n

/-- Space-padded day-of-month field (`%3d` after the month name). -/
def dayStr (d : Nat) : Str := if d < 10 then ' ' :: natStr d else natStr d

def timeStr (tm : Tm) : Str :=
  pad2 tm.hour ++ (':' :: (pad2 tm.minute ++ (':' :: pad2 tm.second)))

/-- `time.asctime(tm) + " UTC"` for a UTC struct. -/
def asctimeUTC (tm : Tm) : Str :=
  wdayName tm.wday ++ (' ' :: (monthName tm.mon ++ (' ' :: (dayStr tm.mday ++
    (' ' :: (timeStr tm ++ (' ' :: (natStr tm.year ++ (' ' :: "UTC".data)))))))))

/-- First index (starting at `i`) of `s` in a list of names. -/
def findIdx1 : Str → List Str → Nat → Option Nat
  | _, [], _ => none
  | s, t :: rest, i => if s = t then some i else findIdx1 s rest (i + 1)

/-- The `%H:%M:%S` field of the format (with the ranges CPython's
`strptime` regular expressions accept). -/
def parseTimeTok (s : Str) : Option (Nat × Nat × Nat) :=
  match splitCh ':' s with
  | [hs, ms, ss] =>
      match parseNatStr hs, parseNatStr ms, parseNatStr ss with
      | some h, some mi, some sec =>
          if h ≤ 23 ∧ mi ≤ 59 ∧ sec ≤ 61 then some (h, mi, sec) else none
      | _, _, _ => none
  | _ => none

/-- `time.strptime(s, "%a %b %d %H:%M:%S %Y UTC")`, returning the
`struct_time` fields that `calendar.timegm` consumes (plus the parsed
weekday).  `%Y` matches exactly four digits. -/
def strptimeUTC (s : Str) : Option Tm :=
  match splitWs s with
  | [wd, mn, dayT, timeT, yrT, utcT] =>
      match findIdx1 wd WDAY_NAMES 0, findIdx1 mn MONTH_NAMES 1, parseNatStr dayT,
            parseTimeTok timeT, parseNatStr yrT with
      | some w, some mon, some day, some (h, mi, sec), some yr =>
          if 1 ≤ day ∧ day ≤ 31 ∧ yrT.length = 4 ∧ utcT = "UTC".data then
            some { year := yr, mon := mon, mday := day, hour := h, minute := mi,
                   second := sec, wday := w }
          else none
      | _, _, _, _, _ => none
  | _ => none

theorem parseNatStr_zero_pad {s : Str} {n : Nat} (h : parseNatStr s = some n) :
    parseNatStr ('0' :: s) = some n := by
  simp only [parseNatStr] at h ⊢
  by_cases hc : s ≠ [] ∧ s.all isDig = true
  · rw [if_pos hc] at h
    have hc2 : ('0' :: s : Str) ≠ [] ∧ ('0' :: s).all isDig = true := by
      refine ⟨by simp, ?_⟩
      rw [List.all_cons, hc.2]
      decide
    rw [if_pos hc2]
    have hmap : (('0' :: s).map chVal).reverse = (s.map chVal).reverse ++ [chVal '0'] := by
      simp
    rw [hmap]
    rw [ofDigitsNat_append]
    have hzero : chVal '0' = 0 := by decide
    rw [hzero]
    have hz : ofDigitsNat [0] = 0 := by decide
    rw [hz, Nat.mul_zero, Nat.add_zero]
    exact h
  · rw [if_neg hc] at h
    exact absurd h (by simp)

theorem parseNatStr_pad2 (n : Nat) : parseNatStr (pad2 n) = some n := by
  unfold pad2
  by_cases h : n < 10
  · rw [if_pos h]
    exact parseNatStr_zero_pad (parseNatStr_natStr n)
  · rw [if_neg h]
    exact parseNatStr_natStr n

theorem pad2_all_digits (n : Nat) : ∀ c ∈ pad2 n, isDig c = true := by
  intro c hc
  unfold pad2 at hc
  by_cases h : n < 10
  · rw [if_pos h] at hc
    rcases List.mem_cons.mp hc with rfl | h2
    · decide
    · exact natStr_all_digits n c h2
  · rw [if_neg h] at hc
    exact natStr_all_digits n c hc

theorem pad2_ne_nil (n : Nat) : pad2 n ≠ [] := by
  unfold pad2
  by_cases h : n < 10
  · rw [if_pos h]; simp
  · rw [if_neg h]; exact natStr_ne_nil n

theorem timeStr_no_space (tm : Tm) : ∀ c ∈ timeStr tm, c ≠ ' ' := by
  intro c hc
  unfold timeStr at hc
  have hdig : ∀ x, x ∈ pad2 tm.hour ∨ x ∈ pad2 tm.minute ∨ x ∈ pad2 tm.second → isDig x = true := by
    rintro x (hx | hx | hx)
    · exact pad2_all_digits _ x hx
    · exact pad2_all_digits _ x hx
    · exact pad2_all_digits _ x hx
  simp only [List.mem_append, List.mem_cons] at hc
  rcases hc with hx | rfl | hx | rfl | hx
  · exact (isDig_ne_special (hdig c (Or.inl hx))).2.1
  · decide
  · exact (isDig_ne_special (hdig c (Or.inr (Or.inl hx)))).2.1
  · decide
  · exact (isDig_ne_special (hdig c (Or.inr (Or.inr hx)))).2.1

theorem timeStr_ne_nil (tm : Tm) : timeStr tm ≠ [] := by
  unfold timeStr
  intro h
  have h2 := congrArg List.length h
  simp only [List.length_append, List.length_cons, List.length_nil] at h2
  omega

theorem parseTimeTok_timeStr (tm : Tm) (hh : tm.hour ≤ 23) (hmi : tm.minute ≤ 59)
    (hs : tm.second ≤ 59) :
    parseTimeTok (timeStr tm) = some (tm.hour, tm.minute, tm.second) := by
  have hsplit : splitCh ':' (timeStr tm) = [pad2 tm.hour, pad2 tm.minute, pad2 tm.second] := by
    unfold timeStr
    rw [splitCh_sep _ _ _ (fun c hc => (isDig_ne_special (pad2_all_digits _ c hc)).2.2.1)]
    rw [splitCh_sep _ _ _ (fun c hc => (isDig_ne_special (pad2_all_digits _ c hc)).2.2.1)]
    rw [splitCh_last _ _ (fun c hc => (isDig_ne_special (pad2_all_digits _ c hc)).2.2.1)]
  simp only [parseTimeTok, hsplit, parseNatStr_pad2]
  rw [if_pos ⟨hh, hmi, by omega⟩]

theorem wdayName_spec : ∀ w, w < 7 → wdayName w ≠ [] ∧ (∀ c ∈ wdayName w, c ≠ ' ') ∧
    findIdx1 (wdayName w) WDAY_NAMES 0 = some w := by decide

theorem monthName_spec : ∀ m, m < 13 → 1 ≤ m → monthName m ≠ [] ∧
    (∀ c ∈ monthName m, c ≠ ' ') ∧ findIdx1 (monthName m) MONTH_NAMES 1 = some m := by
  decide

/-- `strptime` with the offset-file format inverts `asctime + " UTC"` for
any valid UTC struct with a four-digit year. -/
theorem strptime_asctimeUTC (tm : Tm) (hw : tm.wday ≤ 6) (hm1 : 1 ≤ tm.mon)
    (hm2 : tm.mon ≤ 12) (hd1 : 1 ≤ tm.mday) (hd2 : tm.mday ≤ 31) (hh : tm.hour ≤ 23)
    (hmi : tm.minute ≤ 59) (hs : tm.second ≤ 59) (hy1 : 1000 ≤ tm.year)
    (hy2 : tm.year ≤ 9999) :
    strptimeUTC (asctimeUTC tm) = some tm := by
  obtain ⟨wspec1, wspec2, wspec3⟩ := wdayName_spec tm.wday (by omega)
  obtain ⟨mspec1, mspec2, mspec3⟩ := monthName_spec tm.mon (by omega) hm1
  have htoks : splitWs (asctimeUTC tm) =
      [wdayName tm.wday, monthName tm.mon, natStr tm.mday, timeStr tm, natStr tm.year,
       "UTC".data] := by
    unfold asctimeUTC
    rw [splitWs_token _ _ wspec1 wspec2]
    rw [splitWs_token _ _ mspec1 mspec2]
    have hday : splitWs (dayStr tm.mday ++ (' ' :: (timeStr tm ++
        (' ' :: (natStr tm.year ++ (' ' :: "UTC".data)))))) =
        natStr tm.mday :: splitWs (timeStr tm ++
          (' ' :: (natStr tm.year ++ (' ' :: "UTC".data)))) := by
      unfold dayStr
      by_cases h10 : tm.mday < 10
      · rw [if_pos h10, List.cons_append, splitWs_space]
        exact splitWs_token _ _ (natStr_ne_nil _) (natStr_no_space _)
      · rw [if_neg h10]
        exact splitWs_token _ _ (natStr_ne_nil _) (natStr_no_space _)
    rw [hday]
    rw [splitWs_token _ _ (timeStr_ne_nil tm) (timeStr_no_space tm)]
    rw [splitWs_token _ _ (natStr_ne_nil _) (natStr_no_space _)]
    rw [splitWs_last _ (by decide) (by decide)]
  simp only [strptimeUTC, htoks, wspec3, mspec3, parseNatStr_natStr,
    parseTimeTok_timeStr tm hh hmi hs]
  rw [if_pos ⟨hd1, hd2, natStr_length_four (by omega) hy2, by trivial⟩]

/-! ## `XMLOffset` and `XMLOffsetFile` (`src/xmlparse.py`) -/

/-- Modelled from the spec: the `passband` module is not under `src/`.
Per the spec, the `filter` attribute stores the string form of the
photometric filter (`str(offset.filter)`) and `__getitem__` parses the
string back to a photometric-filter value
(`passband.Passband(element.get('filter'))`), so a passband is embedded
as the name string it prints as. -/
structure Passband where
  name : Str
  deriving DecidableEq, Repr

/-- `XMLOffset`: the translation offset between two FITS images
(`xmlparse.XMLOffset.__init__`).  The observation date is kept in
seconds after the Unix epoch; pixel offsets are floats (embedded as the
rationals they denote); overlap counts are non-negative integers. -/
structure XMLOffset where
  reference : Str
  shifted : Str
  filter : Passband
  date : Nat
  x : ℚ
  y : ℚ
  x_overlap : Nat
  y_overlap : Nat
  deriving DecidableEq, Repr

/-- One `<offset>` element as built by `XMLOffsetFile.add`: children
`reference`, `shifted` (attributes `date`, `filter`), `x_offset`
(attribute `overlap`), `y_offset` (attribute `overlap`), in that
order. -/
structure OffsetElement where
  referenceText : Str
  shiftedText : Str
  dateAttr : Str
  filterAttr : Str
  xText : Str
  xOverlapAttr : Str
  yText : Str
  yOverlapAttr : Str
  deriving DecidableEq, Repr

/-- In-memory state of an `XMLOffsetFile`: the root `<offsets>` element,
i.e. its list of `<offset>` children and its `size` attribute. -/
structure XMLOffsetFile where
  offsets : List OffsetElement
  sizeAttr : Str
  deriving DecidableEq, Repr

/-- `XMLOffsetFile()` with no path:
`lxml.etree.Element('offsets', size='0')`. -/
def XMLOffsetFile.empty : XMLOffsetFile := { offsets := [], sizeAttr := ['0'] }

/-- The `<offset>` element built by `XMLOffsetFile.add`: the date is
`"%s UTC" % time.asctime(time.gmtime(offset.date))`, the filter is
`str(offset.filter)`, offsets and overlaps are `str(...)`. -/
def encodeOffset (o : XMLOffset) : OffsetElement :=
  { referenceText := o.reference
    shiftedText := o.shifted
    dateAttr := asctimeUTC (gmtime o.date)
    filterAttr := o.filter.name
    xText := floatStr o.x
    xOverlapAttr := natStr o.x_overlap
    yText := floatStr o.y
    yOverlapAttr := natStr o.y_overlap }

/-- `XMLOffsetFile.add`: append the element and update the root `size`
attribute to the new length. -/
def XMLOffsetFile.add (f : XMLOffsetFile) (o : XMLOffset) : XMLOffsetFile :=
  { offsets := f.offsets ++ [encodeOffset o],
    sizeAttr := natStr (f.offsets ++ [encodeOffset o]).length }

/-- `XMLOffsetFile.__len__`. -/
def XMLOffsetFile.count (f : XMLOffsetFile) : Nat := f.offsets.length

/-- `XMLOffsetFile.__getitem__`'s reconstruction of an `XMLOffset` from
one `<offset>` element: `calendar.timegm(time.strptime(date_str, FMT))`
for the date, `Passband(...)` for the filter, `float(...)` for the
offsets, `int(...)` for the overlaps.  A parse failure (a Python
exception) is embedded as `none`. -/
def decodeOffset (e : OffsetElement) : Option XMLOffset :=
  match strptimeUTC e.dateAttr, parseFloatStr e.xText, parseNatStr e.xOverlapAttr,
        parseFloatStr e.yText, parseNatStr e.yOverlapAttr with
  | some tm, some x, some xo, some y, some yo =>
      some { reference := e.referenceText, shifted := e.shiftedText,
             filter := { name := e.filterAttr }, date := timegm tm,
             x := x, y := y, x_overlap := xo, y_overlap := yo }
  | _, _, _, _, _ => none

/-- `XMLOffsetFile.__getitem__` (out-of-range indices, like parse
failures, are embedded as `none`). -/
def XMLOffsetFile.get (f : XMLOffsetFile) (i : Nat) : Option XMLOffset :=
  (f.offsets[i]?).bind decodeOffset

theorem decodeOffset_encodeOffset (o : XMLOffset) (hdate : o.date < 253402300800)
    (hx : FloatRepresentable o.x) (hy : FloatRepresentable o.y) :
    decodeOffset (encodeOffset o) = some o := by
  obtain ⟨b1, b2, b3, b4, b5, b6, b7, b8, b9⟩ := gmtime_bounds o.date
  have hyr := gmtime_year_le o.date hdate
  have hdparse : strptimeUTC (asctimeUTC (gmtime o.date)) = some (gmtime o.date) :=
    strptime_asctimeUTC _ b9 b2 b3 b4 b5 b6 b7 b8 (by omega) hyr
  simp only [decodeOffset, encodeOffset, hdparse, floatStr_roundtrip o.x hx,
    floatStr_roundtrip o.y hy, parseNatStr_natStr]
  rw [timegm_gmtime]

def c1ConcreteOffset : XMLOffset :=
  { reference := "reference.fits".data, shifted := "shifted.fits".data,
    filter := { name := "Johnson V".data }, date := 750000000,
    x := mkRat 31 2, y := mkRat (-1) 4, x_overlap := 3, y_overlap := 5 }

def c1OverflowOffset : XMLOffset :=
  { reference := "reference.fits".data, shifted := "shifted.fits".data,
    filter := { name := "Johnson V".data }, date := 253402300800,
    x := 0, y := 0, x_overlap := 0, y_overlap := 0 }

/-- Validation of the root element against the embedded DTD
(`XMLOffsetFile.XML_DTD`).  Of the DTD's constraints, the children
order, element names and required attributes hold by construction in
the typed tree; the one constraint that can fail is the content model
`<!ELEMENT offsets (offset+)>`, which requires at least one `<offset>`
child. -/
def validateOffsetsDTD (f : XMLOffsetFile) : Bool := decide (f.offsets ≠ [])

/-- Outcome of `XMLOffsetFile.dump`: the file is always written
(silently overwriting), then `validate_dtd` re-reads it and raises on a
validation failure. -/
structure DumpOutcome where
  written : Bool
  result : Except Str Unit

/-- `XMLOffsetFile.dump`: write `self._toxml()` to the path, then
`validate_dtd(path)`. -/
def XMLOffsetFile.dump (f : XMLOffsetFile) : DumpOutcome :=
  { written := true,
    result := if validateOffsetsDTD f then Except.ok ()
              else Except.error ("DTD validation failed".data) }

/-- **C10**: a freshly constructed `XMLOffsetFile` (no source path,
count 0, `add` never called) cannot be persisted: `dump` writes the
file and then always fails its own DTD self-validation, because the
embedded DTD declares `offsets (offset+)`, requiring at least one
`offset` child. -/
theorem XMLOffsetFile_dump_empty_fails :
    XMLOffsetFile.empty.count = 0 ∧
    XMLOffsetFile.empty.dump.written = true ∧
    XMLOffsetFile.empty.dump.result =
      Except.error ("DTD validation failed".data) := by
  exact ⟨rfl, rfl, rfl⟩

/-! ## A stable insertion sort

`list.sort(key=...)` in Python is a stable sort; for a total transitive
boolean key comparison its output is uniquely determined (sorted and a
permutation, with ties in original order), so the stable insertion sort
below is extensionally Python's sort. -/

def insertLE (le : α → α → Bool) (a : α) : List α → List α
  | [] => [a]
  | b :: bs => if le a b then a :: b :: bs else b :: insertLE le a bs

def sortLE (le : α → α → Bool) : List α → List α
  | [] => []
  | a :: rest => insertLE le a (sortLE le rest)

theorem insertLE_perm (le : α → α → Bool) (a : α) :
    ∀ l : List α, (insertLE le a l).Perm (a :: l) := by
  intro l
  induction l with
  | nil => simp [insertLE]
  | cons b bs ih =>
    simp only [insertLE]
    by_cases h : le a b
    · rw [if_pos h]
    · rw [if_neg h]
      exact (List.Perm.cons b ih).trans (List.Perm.swap a b bs)

theorem sortLE_perm (le : α → α → Bool) :
    ∀ l : List α, (sortLE le l).Perm l := by
  intro l
  induction l with
  | nil => simp [sortLE]
  | cons a rest ih =>
    simp only [sortLE]
    exact (insertLE_perm le a (sortLE le rest)).trans (List.Perm.cons a ih)

theorem insertLE_sorted (le : α → α → Bool)
    (htrans : ∀ a b c, le a b = true → le b c = true → le a c = true)
    (htotal : ∀ a b, le a b = true ∨ le b a = true) (a : α) :
    ∀ l : List α, List.Pairwise (fun x y => le x y = true) l →
      List.Pairwise (fun x y => le x y = true) (insertLE le a l) := by
  intro l
  induction l with
  | nil => intro _; simp [insertLE]
  | cons b bs ih =>
    intro hs
    rw [List.pairwise_cons] at hs
    obtain ⟨hb, hbs⟩ := hs
    simp only [insertLE]
    by_cases h : le a b
    · rw [if_pos h]
      rw [List.pairwise_cons]
      refine ⟨?_, List.pairwise_cons.mpr ⟨hb, hbs⟩⟩
      intro x hx
      rcases List.mem_cons.mp hx with rfl | hx2
      · exact h
      · exact htrans a b x h (hb x hx2)
    · rw [if_neg h]
      rw [List.pairwise_cons]
      have hba : le b a = true := by
        rcases htotal a b with h1 | h1
        · exact absurd h1 h
        · exact h1
      refine ⟨?_, ih hbs⟩
      intro x hx
      have := (insertLE_perm le a bs).mem_iff.mp hx
      rcases List.mem_cons.mp this with rfl | hx2
      · exact hba
      · exact hb x hx2

theorem sortLE_sorted (le : α → α → Bool)
    (htrans : ∀ a b c, le a b = true → le b c = true → le a c = true)
    (htotal : ∀ a b, le a b = true ∨ le b a = true) :
    ∀ l : List α, List.Pairwise (fun x y => le x y = true) (sortLE le l) := by
  intro l
  induction l with
  | nil => simp [sortLE]
  | cons a rest ih =>
    simp only [sortLE]
    exact insertLE_sorted le htrans htotal a (sortLE le rest) ih

theorem sortLE_of_sorted (le : α → α → Bool) :
    ∀ l : List α, List.Pairwise (fun x y => le x y = true) l → sortLE le l = l := by
  intro l
  induction l with
  | nil => intro _; rfl
  | cons a rest ih =>
    intro hs
    rw [List.pairwise_cons] at hs
    obtain ⟨ha, hrest⟩ := hs
    simp only [sortLE, ih hrest]
    cases rest with
    | nil => rfl
    | cons b bs =>
      simp only [insertLE]
      rw [if_pos (ha b (by simp))]

/-! ## `CandidateAnnuli` (`src/xmlparse.py`) -/

/-- `CandidateAnnuli.__init__`: one evaluated combination of photometric
parameters and the resulting light-curve scatter. -/
structure CandidateAnnuli where
  aperture : ℚ
  annulus : ℚ
  dannulus : ℚ
  stdev : ℚ
  deriving DecidableEq, Repr

/-- Round the fraction `a / b` (with `b > 0`) to the nearest integer,
ties to even: the rounding performed by C's `"%.*f"` formatting on the
exact value.  Stated on a numerator/denominator pair so that it is
kernel-evaluable. -/
def roundHalfEvenAt (a : ℤ) (b : ℕ) : ℤ :=
  let q := a / (b : ℤ)
  let r2 := 2 * (a - q * (b : ℤ))
  if r2 < (b : ℤ) then q
  else if (b : ℤ) < r2 then q + 1
  else if q % 2 = 0 then q else q + 1

/-- The value written by `'%.*f'`, as a rational: `x` rounded to `p`
decimal places. -/
def roundTo (p : Nat) (x : ℚ) : ℚ :=
  (roundHalfEvenAt (x.num * 10 ^ p) x.den : ℚ) / 10 ^ p

/-- `'%.5f' % x` / `'%.8f' % x`: fixed-precision decimal formatting. -/
def fmtFixed (p : Nat) (x : ℚ) : Str :=
  renderScaled (roundHalfEvenAt (x.num * 10 ^ p) x.den) p

theorem roundHalfEvenAt_spec (a : ℤ) (b : ℕ) (hb : 0 < b) :
    (roundHalfEvenAt a b = ⌊((a : ℚ) / (b : ℚ))⌋ ∧
      (a : ℚ) / (b : ℚ) - ⌊((a : ℚ) / (b : ℚ))⌋ < 1 / 2) ∨
    (roundHalfEvenAt a b = ⌊((a : ℚ) / (b : ℚ))⌋ + 1 ∧
      (1 : ℚ) / 2 < (a : ℚ) / (b : ℚ) - ⌊((a : ℚ) / (b : ℚ))⌋) ∨
    ((a : ℚ) / (b : ℚ) - ⌊((a : ℚ) / (b : ℚ))⌋ = 1 / 2 ∧
      roundHalfEvenAt a b =
        (if ⌊((a : ℚ) / (b : ℚ))⌋ % 2 = 0 then ⌊((a : ℚ) / (b : ℚ))⌋
         else ⌊((a : ℚ) / (b : ℚ))⌋ + 1)) := by
  have hfloor : ⌊((a : ℚ) / (b : ℚ))⌋ = a / (b : ℤ) :=
    Rat.floor_intCast_div_natCast a b
  have hbq : (0 : ℚ) < (b : ℚ) := by exact_mod_cast hb
  have hval : ((a : ℚ) / (b : ℚ)) * (b : ℚ) = (a : ℚ) :=
    div_mul_cancel₀ _ (ne_of_gt hbq)
  have hr2 : ((2 * (a - a / (b : ℤ) * (b : ℤ)) : ℤ) : ℚ) =
      2 * ((a : ℚ) / (b : ℚ) - (⌊((a : ℚ) / (b : ℚ))⌋ : ℚ)) * (b : ℚ) := by
    rw [hfloor]
    push_cast
    linear_combination (-2 : ℚ) * hval
  unfold roundHalfEvenAt
  by_cases h1 : 2 * (a - a / (b : ℤ) * (b : ℤ)) < (b : ℤ)
  · rw [if_pos h1]
    left
    refine ⟨hfloor.symm, ?_⟩
    have h1q : ((2 * (a - a / (b : ℤ) * (b : ℤ)) : ℤ) : ℚ) < ((b : ℤ) : ℚ) := by
      exact_mod_cast h1
    rw [hr2] at h1q
    push_cast at h1q
    nlinarith
  · rw [if_neg h1]
    by_cases h2 : (b : ℤ) < 2 * (a - a / (b : ℤ) * (b : ℤ))
    · rw [if_pos h2]
      right; left
      refine ⟨by rw [hfloor], ?_⟩
      have h2q : ((b : ℤ) : ℚ) < ((2 * (a - a / (b : ℤ) * (b : ℤ)) : ℤ) : ℚ) := by
        exact_mod_cast h2
      rw [hr2] at h2q
      push_cast at h2q
      nlinarith
    · rw [if_neg h2]
      right; right
      have heq : (b : ℤ) = 2 * (a - a / (b : ℤ) * (b : ℤ)) := by omega
      have heqq : ((b : ℤ) : ℚ) = ((2 * (a - a / (b : ℤ) * (b : ℤ)) : ℤ) : ℚ) := by
        exact_mod_cast heq
      rw [hr2] at heqq
      push_cast at heqq
      refine ⟨by nlinarith, by rw [hfloor]⟩

theorem roundHalfEvenAt_ge_floor (a : ℤ) (b : ℕ) (hb : 0 < b) :
    ⌊((a : ℚ) / (b : ℚ))⌋ ≤ roundHalfEvenAt a b := by
  rcases roundHalfEvenAt_spec a b hb with ⟨h, _⟩ | ⟨h, _⟩ | ⟨_, h⟩
  · omega
  · omega
  · rw [h]; split <;> omega

theorem roundHalfEvenAt_le_floor_succ (a : ℤ) (b : ℕ) (hb : 0 < b) :
    roundHalfEvenAt a b ≤ ⌊((a : ℚ) / (b : ℚ))⌋ + 1 := by
  rcases roundHalfEvenAt_spec a b hb with ⟨h, _⟩ | ⟨h, _⟩ | ⟨_, h⟩
  · omega
  · omega
  · rw [h]; split <;> omega

/-- Rounding-half-to-even is monotone in the represented value. -/
theorem roundHalfEvenAt_mono {a₁ : ℤ} {b₁ : ℕ} {a₂ : ℤ} {b₂ : ℕ}
    (hb₁ : 0 < b₁) (hb₂ : 0 < b₂)
    (h : (a₁ : ℚ) / (b₁ : ℚ) ≤ (a₂ : ℚ) / (b₂ : ℚ)) :
    roundHalfEvenAt a₁ b₁ ≤ roundHalfEvenAt a₂ b₂ := by
  have hfl : ⌊((a₁ : ℚ) / (b₁ : ℚ))⌋ ≤ ⌊((a₂ : ℚ) / (b₂ : ℚ))⌋ :=
    Int.floor_le_floor h
  rcases lt_or_eq_of_le hfl with hlt | heq
  · have h1 := roundHalfEvenAt_le_floor_succ a₁ b₁ hb₁
    have h2 := roundHalfEvenAt_ge_floor a₂ b₂ hb₂
    omega
  · have hfrac : (a₁ : ℚ) / (b₁ : ℚ) - ⌊((a₁ : ℚ) / (b₁ : ℚ))⌋ ≤
        (a₂ : ℚ) / (b₂ : ℚ) - ⌊((a₂ : ℚ) / (b₂ : ℚ))⌋ := by
      rw [heq]
      have : ((⌊((a₂ : ℚ) / (b₂ : ℚ))⌋ : ℚ)) = ((⌊((a₂ : ℚ) / (b₂ : ℚ))⌋ : ℚ)) := rfl
      linarith
    rcases roundHalfEvenAt_spec a₁ b₁ hb₁ with ⟨e1, f1⟩ | ⟨e1, f1⟩ | ⟨f1, e1⟩ <;>
      rcases roundHalfEvenAt_spec a₂ b₂ hb₂ with ⟨e2, f2⟩ | ⟨e2, f2⟩ | ⟨f2, e2⟩
    · omega
    · omega
    · rw [e1, e2]; split <;> omega
    · exfalso; rw [heq] at f1; linarith
    · omega
    · exfalso; rw [heq] at f1; linarith
    · exfalso; rw [heq] at f1; linarith
    · rw [e1, e2, heq]; split <;> omega
    · rw [e1, e2, heq]

theorem scaled_val (p : Nat) (x : ℚ) :
    ((x.num * 10 ^ p : ℤ) : ℚ) / ((x.den : ℚ)) = x * 10 ^ p := by
  push_cast
  rw [mul_div_right_comm, Rat.num_div_den]

theorem roundTo_mono (p : Nat) {x y : ℚ} (h : x ≤ y) : roundTo p x ≤ roundTo p y := by
  unfold roundTo
  have hmono : roundHalfEvenAt (x.num * 10 ^ p) x.den ≤
      roundHalfEvenAt (y.num * 10 ^ p) y.den := by
    apply roundHalfEvenAt_mono x.den_pos y.den_pos
    rw [scaled_val, scaled_val]
    have hp : (0 : ℚ) ≤ 10 ^ p := by positivity
    exact mul_le_mul_of_nonneg_right h hp
  gcongr

theorem parseFloatStr_fmtFixed (p : Nat) (x : ℚ) (hp : 0 < p) :
    parseFloatStr (fmtFixed p x) = some (roundTo p x) := by
  unfold fmtFixed roundTo
  exact parseFloatStr_renderScaled _ p hp

/-- The four formatted attribute values shared by `<band>` and
`<candidate>` elements: aperture/annulus/dannulus at 5 decimal places,
stdev at 8. -/
structure AttrQuad where
  aperture : Str
  annulus : Str
  dannulus : Str
  stdev : Str
  deriving DecidableEq, Repr

/-- A `<band>` element: `name` attribute, the best candidate's four
formatted attributes on the band itself, and one `<candidate>` child per
evaluated combination. -/
structure Band where
  name : Str
  best : AttrQuad
  cands : List AttrQuad
  deriving DecidableEq, Repr

/-- The document written by `CandidateAnnuli.xml_dump`: the root
`<annuli>` element with its `<band>` children. -/
structure AnnuliDocument where
  bands : List Band
  deriving DecidableEq, Repr

/-- The formatted attributes of one candidate
(`'%.5f'`/`'%.5f'`/`'%.5f'`/`'%.8f'`). -/
def fmtQuad (c : CandidateAnnuli) : AttrQuad :=
  { aperture := fmtFixed 5 c.aperture, annulus := fmtFixed 5 c.annulus,
    dannulus := fmtFixed 5 c.dannulus, stdev := fmtFixed 8 c.stdev }

/-- The candidate reconstructed by `xml_load` from four formatted
attributes (`float(...)` on each). -/
def parseQuad (a : AttrQuad) : Option CandidateAnnuli :=
  match parseFloatStr a.aperture, parseFloatStr a.annulus, parseFloatStr a.dannulus,
        parseFloatStr a.stdev with
  | some ap, some an, some da, some st =>
      some { aperture := ap, annulus := an, dannulus := da, stdev := st }
  | _, _, _, _ => none

/-- The per-field rounding that one `xml_dump`/`xml_load` round trip
applies to a candidate. -/
def roundCand (c : CandidateAnnuli) : CandidateAnnuli :=
  { aperture := roundTo 5 c.aperture, annulus := roundTo 5 c.annulus,
    dannulus := roundTo 5 c.dannulus, stdev := roundTo 8 c.stdev }

theorem parseQuad_fmtQuad (c : CandidateAnnuli) :
    parseQuad (fmtQuad c) = some (roundCand c) := by
  simp only [parseQuad, fmtQuad, parseFloatStr_fmtFixed 5 _ (by norm_num),
    parseFloatStr_fmtFixed 8 _ (by norm_num), roundCand]

/-- `operator.attrgetter('annulus', 'aperture')` under Python's tuple
comparison: the sort key of the `<candidate>` listing. -/
def candLE (a b : CandidateAnnuli) : Bool :=
  decide (a.annulus < b.annulus ∨ (a.annulus = b.annulus ∧ a.aperture ≤ b.aperture))

theorem candLE_trans (a b c : CandidateAnnuli) (h1 : candLE a b = true)
    (h2 : candLE b c = true) : candLE a c = true := by
  simp only [candLE, decide_eq_true_eq] at *
  rcases h1 with h1 | ⟨e1, h1⟩ <;> rcases h2 with h2 | ⟨e2, h2⟩
  · exact Or.inl (lt_trans h1 h2)
  · exact Or.inl (e2 ▸ h1)
  · exact Or.inl (e1 ▸ h2)
  · exact Or.inr ⟨e1.trans e2, le_trans h1 h2⟩

theorem candLE_total (a b : CandidateAnnuli) : candLE a b = true ∨ candLE b a = true := by
  simp only [candLE, decide_eq_true_eq]
  rcases lt_trichotomy a.annulus b.annulus with h | h | h
  · exact Or.inl (Or.inl h)
  · rcases le_total a.aperture b.aperture with h2 | h2
    · exact Or.inl (Or.inr ⟨h, h2⟩)
    · exact Or.inr (Or.inr ⟨h.symm, h2⟩)
  · exact Or.inr (Or.inl h)

/-- `annuli[pfilter].sort(key = operator.attrgetter('annulus', 'aperture'))`. -/
def sortCand (l : List CandidateAnnuli) : List CandidateAnnuli := sortLE candLE l

/-- `min(candidates, key = operator.attrgetter('stdev'))` starting from
`c`: Python's `min` keeps the first element whose key is minimal. -/
def argminStdev (c : CandidateAnnuli) (l : List CandidateAnnuli) : CandidateAnnuli :=
  l.foldl (fun b x => if x.stdev < b.stdev then x else b) c

theorem argminStdev_spec : ∀ (l : List CandidateAnnuli) (c : CandidateAnnuli),
    argminStdev c l ∈ c :: l ∧ ∀ x ∈ c :: l, (argminStdev c l).stdev ≤ x.stdev := by
  intro l
  induction l with
  | nil =>
    intro c
    refine ⟨by simp [argminStdev], ?_⟩
    intro x hx
    rcases List.mem_cons.mp hx with rfl | hx2
    · exact le_refl _
    · simp at hx2
  | cons d rest ih =>
    intro c
    have hstep : argminStdev c (d :: rest) =
        argminStdev (if d.stdev < c.stdev then d else c) rest := rfl
    obtain ⟨hmem, hmin⟩ := ih (if d.stdev < c.stdev then d else c)
    constructor
    · rw [hstep]
      rcases List.mem_cons.mp hmem with he | hx2
      · rw [he]
        by_cases hdc : d.stdev < c.stdev
        · rw [if_pos hdc]; simp
        · rw [if_neg hdc]; simp
      · simp [hx2]
    · intro x hx
      rw [hstep]
      have hminc : (argminStdev (if d.stdev < c.stdev then d else c) rest).stdev ≤
          (if d.stdev < c.stdev then d else c).stdev := hmin _ (by simp)
      have hle_c : (argminStdev (if d.stdev < c.stdev then d else c) rest).stdev ≤
          c.stdev := by
        by_cases hdc : d.stdev < c.stdev
        · rw [if_pos hdc] at hminc ⊢
          exact le_trans hminc (le_of_lt hdc)
        · rw [if_neg hdc] at hminc ⊢
          exact hminc
      have hle_d : (argminStdev (if d.stdev < c.stdev then d else c) rest).stdev ≤
          d.stdev := by
        by_cases hdc : d.stdev < c.stdev
        · rw [if_pos hdc] at hminc ⊢
          exact hminc
        · rw [if_neg hdc] at hminc ⊢
          exact le_trans hminc (le_of_not_lt hdc)
      rcases List.mem_cons.mp hx with he | hx2
      · rw [he]
        exact hle_c
      · rcases List.mem_cons.mp hx2 with he2 | hx3
        · rw [he2]
          exact hle_d
        · exact hmin x (by simp [hx3])

/-- Lexicographic comparison of name strings: the sort key of
`sorted(annuli.iterkeys())` over photometric filters (modelled from the
spec: "filters ordered by a stable sort key, e.g. name"; the `passband`
module is not under `src/`). -/
def strLEb : Str → Str → Bool
  | [], _ => true
  | _ :: _, [] => false
  | a :: as2, b :: bs => if a < b then true else if b < a then false else strLEb as2 bs

/-- A dictionary mapping photometric filters to candidate lists,
embedded as an association list (Python dict keys are distinct; claims
that need distinctness state it). -/
abbrev AnnuliMap : Type := List (Passband × List CandidateAnnuli)

def pairLE (a b : Passband × List CandidateAnnuli) : Bool := strLEb a.1.name b.1.name

/-- Option-valued map (`none` as soon as one element fails), used to
embed Python raising mid-iteration. -/
def mapO (f : α → Option β) : List α → Option (List β)
  | [] => some []
  | a :: rest =>
    match f a, mapO f rest with
    | some b, some bs => some (b :: bs)
    | _, _ => none

theorem mapO_map {f : α → Option β} {g : α → β} :
    ∀ l : List α, (∀ a ∈ l, f a = some (g a)) → mapO f l = some (l.map g) := by
  intro l
  induction l with
  | nil => intro _; rfl
  | cons a rest ih =>
    intro h
    simp only [mapO, h a (by simp), ih (fun x hx => h x (by simp [hx])), List.map_cons]

/-- The `<band>` element written for one filter: `best` from
`min(annuli[pfilter], key = attrgetter('stdev'))` evaluated on the list
as passed in, `cands` from the list after its in-place
`sort(key = attrgetter('annulus', 'aperture'))`.  `min` of an empty
list raises `ValueError`, embedded as `none`. -/
def mkBand (pb : Passband) (l : List CandidateAnnuli) : Option Band :=
  match l with
  | [] => none
  | c :: rest =>
      some { name := pb.name, best := fmtQuad (argminStdev c rest),
             cands := (sortCand (c :: rest)).map fmtQuad }

/-- DTD validation of an `<annuli>` document.  The embedded DTD allows
`band*` and `candidate*` and otherwise requires element names, nesting
and the four attributes, all of which hold by construction in the typed
document, so validation always succeeds. -/
def validateAnnuliDTD (doc : AnnuliDocument) : Bool :=
  doc.bands.all (fun _ => true)

/-- `CandidateAnnuli.xml_dump`: iterate over the filters in sorted
order, write one `<band>` per filter, and — because of the in-place
`list.sort` — leave each of the caller's candidate lists re-sorted by
`(annulus, aperture)`.  Returns the written document together with the
post-call state of the `annuli` mapping (`none` embeds the
`ValueError` raised by `min([])`). -/
def xml_dump (annuli : AnnuliMap) : Option (AnnuliDocument × AnnuliMap) :=
  match mapO (fun p => mkBand p.1 p.2) (sortLE pairLE annuli) with
  | some bands => some (⟨bands⟩, annuli.map (fun p => (p.1, sortCand p.2)))
  | none => none

/-- One entry of the mapping returned by `xml_load`: from the `<band>`
attributes when `best_only`, from the `<candidate>` children
otherwise. -/
def loadBand (bestOnly : Bool) (b : Band) : Option (Passband × List CandidateAnnuli) :=
  if bestOnly then
    match parseQuad b.best with
    | some c => some (⟨b.name⟩, [c])
    | none => none
  else
    match mapO parseQuad b.cands with
    | some l => some (⟨b.name⟩, l)
    | none => none

/-- `CandidateAnnuli.xml_load`. -/
def xml_load (doc : AnnuliDocument) (bestOnly : Bool) : Option AnnuliMap :=
  mapO (loadBand bestOnly) doc.bands

/-- Placeholder candidate for the (unreached) head of an empty list. -/
def candZero : CandidateAnnuli :=
  { aperture := 0, annulus := 0, dannulus := 0, stdev := 0 }

/-- The `<band>` written for a non-empty candidate list, as a total
function. -/
def bandFor (pb : Passband) (l : List CandidateAnnuli) : Band :=
  { name := pb.name,
    best := fmtQuad (argminStdev (l.headD candZero) l.tail),
    cands := (sortCand l).map fmtQuad }

theorem mkBand_eq_some {pb : Passband} {l : List CandidateAnnuli} (h : l ≠ []) :
    mkBand pb l = some (bandFor pb l) := by
  cases l with
  | nil => exact absurd rfl h
  | cons c rest => rfl

theorem mapO_map_comp (f : β → Option γ) (g : α → β) :
    ∀ l : List α, mapO f (l.map g) = mapO (fun x => f (g x)) l := by
  intro l
  induction l with
  | nil => rfl
  | cons a rest ih => simp only [List.map_cons, mapO, ih]

theorem mapO_mem {f : α → Option β} :
    ∀ {l : List α} {bs : List β}, mapO f l = some bs → ∀ a ∈ l, ∃ b ∈ bs, f a = some b := by
  intro l
  induction l with
  | nil => intro bs _ a ha; simp at ha
  | cons x rest ih =>
    intro bs h a ha
    simp only [mapO] at h
    cases hx : f x with
    | none => rw [hx] at h; simp at h
    | some b =>
      rw [hx] at h
      cases hrest : mapO f rest with
      | none => rw [hrest] at h; simp at h
      | some bs2 =>
        rw [hrest] at h
        simp only [Option.some_inj] at h
        subst h
        rcases List.mem_cons.mp ha with rfl | ha2
        · exact ⟨b, by simp, hx⟩
        · obtain ⟨b2, hb2, hfb2⟩ := ih hrest a ha2
          exact ⟨b2, by simp [hb2], hfb2⟩

theorem xml_dump_eq (annuli : AnnuliMap) (hne : ∀ p ∈ annuli, p.2 ≠ []) :
    xml_dump annuli = some
      (⟨(sortLE pairLE annuli).map (fun p => bandFor p.1 p.2)⟩,
       annuli.map (fun p => (p.1, sortCand p.2))) := by
  unfold xml_dump
  rw [mapO_map (g := fun p => bandFor p.1 p.2)]
  intro p hp
  exact mkBand_eq_some (hne p (((sortLE_perm pairLE annuli).mem_iff).mp hp))

theorem xml_dump_parts {annuli : AnnuliMap} {doc : AnnuliDocument} {post : AnnuliMap}
    (h : xml_dump annuli = some (doc, post)) :
    post = annuli.map (fun p => (p.1, sortCand p.2)) ∧
    mapO (fun p => mkBand p.1 p.2) (sortLE pairLE annuli) = some doc.bands := by
  unfold xml_dump at h
  cases hmo : mapO (fun p => mkBand p.1 p.2) (sortLE pairLE annuli) with
  | none => rw [hmo] at h; exact Option.noConfusion h
  | some bands =>
    rw [hmo] at h
    have h2 := Option.some.inj h
    have hdoc : (⟨bands⟩ : AnnuliDocument) = doc := congrArg Prod.fst h2
    have hpost : annuli.map (fun p => (p.1, sortCand p.2)) = post :=
      congrArg Prod.snd h2
    refine ⟨hpost.symm, ?_⟩
    rw [← hdoc]

theorem loadBand_false_bandFor (pb : Passband) (l : List CandidateAnnuli) :
    loadBand false (bandFor pb l) = some (pb, (sortCand l).map roundCand) := by
  unfold loadBand bandFor
  simp only [Bool.false_eq_true, if_false]
  rw [mapO_map_comp, mapO_map (g := roundCand) _ (fun c _ => parseQuad_fmtQuad c)]

theorem loadBand_true_bandFor (pb : Passband) (l : List CandidateAnnuli) :
    loadBand true (bandFor pb l) = some (pb,
      [roundCand (argminStdev (l.headD candZero) l.tail)]) := by
  unfold loadBand bandFor
  simp only [if_true, parseQuad_fmtQuad]

theorem xml_load_bandFor (annuli : AnnuliMap) (bestOnly : Bool) :
    xml_load ⟨(sortLE pairLE annuli).map (fun p => bandFor p.1 p.2)⟩ bestOnly =
      some ((sortLE pairLE annuli).map (fun p =>
        if bestOnly then
          (p.1, [roundCand (argminStdev (p.2.headD candZero) p.2.tail)])
        else (p.1, (sortCand p.2).map roundCand))) := by
  unfold xml_load
  rw [mapO_map_comp]
  apply mapO_map
  intro p _
  cases bestOnly with
  | false => simp only [Bool.false_eq_true, if_false]; exact loadBand_false_bandFor p.1 p.2
  | true => simp only [if_true]; exact loadBand_true_bandFor p.1 p.2

theorem forall2_map_map {l : List α} {f g : α → β} {R : β → β → Prop}
    (h : ∀ a ∈ l, R (f a) (g a)) : List.Forall₂ R (l.map f) (l.map g) := by
  induction l with
  | nil => simp
  | cons a rest ih =>
    simp only [List.map_cons]
    exact List.Forall₂.cons (h a (by simp)) (ih (fun x hx => h x (by simp [hx])))

/-- **C3**: dumping any mapping from filters to non-empty candidate
lists and loading it back (with `best_only` false) yields the same set
of filters and, per filter, the same collection of quadruples, each
value rounded to the declared precision (5 decimals for
aperture/annulus/dannulus, 8 for stdev); the written document validates
against its own embedded DTD. -/
theorem CandidateAnnuli_xml_roundtrip (annuli : AnnuliMap)
    (hne : ∀ p ∈ annuli, p.2 ≠ []) :
    ∃ doc post, xml_dump annuli = some (doc, post) ∧
      validateAnnuliDTD doc = true ∧
      ∃ out, xml_load doc false = some out ∧
        (out.map Prod.fst).Perm (annuli.map Prod.fst) ∧
        ∀ pb l, (pb, l) ∈ annuli →
          ∃ l2, (pb, l2) ∈ out ∧ l2.Perm (l.map roundCand) := by
  refine ⟨_, _, xml_dump_eq annuli hne, by simp [validateAnnuliDTD], ?_⟩
  have hload := xml_load_bandFor annuli false
  simp only [Bool.false_eq_true, if_false] at hload
  refine ⟨_, hload, ?_, ?_⟩
  · rw [List.map_map]
    have hmaps : (List.map (Prod.fst ∘ fun p => (p.1, (sortCand p.2).map roundCand))
        (sortLE pairLE annuli)) = (sortLE pairLE annuli).map Prod.fst := by
      apply List.map_congr_left
      intro p _
      rfl
    rw [hmaps]
    exact (sortLE_perm pairLE annuli).map Prod.fst
  · intro pb l hmem
    refine ⟨(sortCand l).map roundCand, ?_, ?_⟩
    · have hmem2 : (pb, l) ∈ sortLE pairLE annuli :=
        ((sortLE_perm pairLE annuli).mem_iff).mpr hmem
      exact List.mem_map_of_mem _ hmem2
    · exact (sortLE_perm candLE l).map roundCand

def pbV : Passband := { name := "V".data }

def candA : CandidateAnnuli :=
  { aperture := mkRat 2 1, annulus := mkRat 5 1, dannulus := mkRat 3 1,
    stdev := mkRat 1 2 }

def candB : CandidateAnnuli :=
  { aperture := mkRat 2 1, annulus := mkRat 4 1, dannulus := mkRat 3 1,
    stdev := mkRat 1 1 }

/-- One filter with two candidates, deliberately not sorted by
`(annulus, aperture)`. -/
def annuliExample : AnnuliMap := [(pbV, [candA, candB])]

/-- **C3** witness: the round trip at a concrete one-filter mapping. -/
theorem CandidateAnnuli_xml_roundtrip_witness :
    (∀ p ∈ annuliExample, p.2 ≠ []) ∧
    (∃ doc post, xml_dump annuliExample = some (doc, post) ∧
      validateAnnuliDTD doc = true ∧
      ∃ out, xml_load doc false = some out ∧
        (out.map Prod.fst).Perm (annuliExample.map Prod.fst) ∧
        ∀ pb l, (pb, l) ∈ annuliExample →
          ∃ l2, (pb, l2) ∈ out ∧ l2.Perm (l.map roundCand)) :=
  ⟨by decide, CandidateAnnuli_xml_roundtrip annuliExample (by decide)⟩

/-- **C4**: in any document written by `xml_dump`, each stored filter
has a `<band>` whose four attributes are the formatted quadruple of a
candidate of minimal stdev in that filter's list, and whose
`<candidate>` children list every evaluated combination sorted
ascending by the key `(annulus, aperture)`. -/
theorem CandidateAnnuli_dump_band_spec (annuli : AnnuliMap) (doc : AnnuliDocument)
    (post : AnnuliMap) (hdump : xml_dump annuli = some (doc, post)) (pb : Passband)
    (l : List CandidateAnnuli) (hmem : (pb, l) ∈ annuli) :
    ∃ band ∈ doc.bands, band.name = pb.name ∧
      (∃ c ∈ l, (∀ c2 ∈ l, c.stdev ≤ c2.stdev) ∧ band.best = fmtQuad c) ∧
      (∃ l2, l2.Perm l ∧ List.Pairwise (fun a b => candLE a b = true) l2 ∧
        band.cands = l2.map fmtQuad) := by
  obtain ⟨-, hbands⟩ := xml_dump_parts hdump
  have hmem2 : (pb, l) ∈ sortLE pairLE annuli :=
    ((sortLE_perm pairLE annuli).mem_iff).mpr hmem
  obtain ⟨band, hbmem, hband⟩ := mapO_mem hbands (pb, l) hmem2
  cases l with
  | nil => exact absurd hband (by simp [mkBand])
  | cons c rest =>
    refine ⟨band, hbmem, ?_⟩
    have hband3 : mkBand pb (c :: rest) = some band := hband
    rw [mkBand_eq_some (by simp)] at hband3
    have hband2 : band = bandFor pb (c :: rest) := (Option.some.inj hband3).symm
    obtain ⟨hargmem, hargmin⟩ := argminStdev_spec rest c
    refine ⟨by rw [hband2]; rfl,
      ⟨argminStdev c rest, hargmem, hargmin, by rw [hband2]; rfl⟩,
      sortCand (c :: rest), sortLE_perm candLE (c :: rest),
      sortLE_sorted candLE candLE_trans candLE_total (c :: rest),
      by rw [hband2]; rfl⟩

def annuliExampleDoc : AnnuliDocument :=
  ⟨[{ name := "V".data,
      best := { aperture := "2.00000".data, annulus := "5.00000".data,
                dannulus := "3.00000".data, stdev := "0.50000000".data },
      cands := [{ aperture := "2.00000".data, annulus := "4.00000".data,
                  dannulus := "3.00000".data, stdev := "1.00000000".data },
                { aperture := "2.00000".data, annulus := "5.00000".data,
                  dannulus := "3.00000".data, stdev := "0.50000000".data }] }]⟩

def annuliExamplePost : AnnuliMap := [(pbV, [candB, candA])]

/-- **C4** witness: the band specification at the concrete mapping. -/
theorem CandidateAnnuli_dump_band_spec_witness :
    xml_dump annuliExample = some (annuliExampleDoc, annuliExamplePost) ∧
    (pbV, [candA, candB]) ∈ annuliExample ∧
    (∃ band ∈ annuliExampleDoc.bands, band.name = pbV.name ∧
      (∃ c ∈ [candA, candB], (∀ c2 ∈ [candA, candB], c.stdev ≤ c2.stdev) ∧
        band.best = fmtQuad c) ∧
      (∃ l2, l2.Perm [candA, candB] ∧
        List.Pairwise (fun a b => candLE a b = true) l2 ∧
        band.cands = l2.map fmtQuad)) :=
  ⟨by decide, by decide,
   CandidateAnnuli_dump_band_spec annuliExample annuliExampleDoc annuliExamplePost
     (by decide) pbV [candA, candB] (by decide)⟩

/-- **C5**: `best_only` is a pure optimisation of `xml_load`.  For every
document produced by `xml_dump`, loading with `best_only` gives, per
filter, a single-element list whose element belongs to the full list
loaded with `best_only = False` and has minimal stdev in it — the two
loading paths never disagree on which candidate is best. -/
theorem CandidateAnnuli_best_only_refinement (annuli : AnnuliMap)
    (hne : ∀ p ∈ annuli, p.2 ≠ []) (doc : AnnuliDocument) (post : AnnuliMap)
    (hdump : xml_dump annuli = some (doc, post)) :
    ∃ bo bf, xml_load doc true = some bo ∧ xml_load doc false = some bf ∧
      List.Forall₂ (fun po pf : Passband × List CandidateAnnuli =>
        po.1 = pf.1 ∧ ∃ b, po.2 = [b] ∧ b ∈ pf.2 ∧ ∀ c ∈ pf.2, b.stdev ≤ c.stdev)
        bo bf := by
  rw [xml_dump_eq annuli hne] at hdump
  have hdoc : doc = ⟨(sortLE pairLE annuli).map (fun p => bandFor p.1 p.2)⟩ :=
    (congrArg Prod.fst (Option.some.inj hdump)).symm
  subst hdoc
  have hbo := xml_load_bandFor annuli true
  have hbf := xml_load_bandFor annuli false
  simp only [if_true] at hbo
  simp only [Bool.false_eq_true, if_false] at hbf
  refine ⟨_, _, hbo, hbf, ?_⟩
  apply forall2_map_map
  intro p hp
  have hpne : p.2 ≠ [] := hne p (((sortLE_perm pairLE annuli).mem_iff).mp hp)
  obtain ⟨pb, l⟩ := p
  cases l with
  | nil => exact absurd rfl hpne
  | cons c rest =>
    simp only [List.headD_cons, List.tail_cons]
    obtain ⟨hargmem, hargmin⟩ := argminStdev_spec rest c
    refine ⟨by trivial, roundCand (argminStdev c rest), rfl, ?_, ?_⟩
    · apply List.mem_map_of_mem
      exact ((sortLE_perm candLE (c :: rest)).mem_iff).mpr hargmem
    · intro c2 hc2
      obtain ⟨x, hx, rfl⟩ := List.mem_map.mp hc2
      have hxmem : x ∈ c :: rest := ((sortLE_perm candLE (c :: rest)).mem_iff).mp hx
      exact roundTo_mono 8 (hargmin x hxmem)

/-- **C5** witness: the refinement at the concrete mapping. -/
theorem CandidateAnnuli_best_only_refinement_witness :
    (∀ p ∈ annuliExample, p.2 ≠ []) ∧
    xml_dump annuliExample = some (annuliExampleDoc, annuliExamplePost) ∧
    (∃ bo bf, xml_load annuliExampleDoc true = some bo ∧
      xml_load annuliExampleDoc false = some bf ∧
      List.Forall₂ (fun po pf : Passband × List CandidateAnnuli =>
        po.1 = pf.1 ∧ ∃ b, po.2 = [b] ∧ b ∈ pf.2 ∧ ∀ c ∈ pf.2, b.stdev ≤ c.stdev)
        bo bf) :=
  ⟨by decide, by decide,
   CandidateAnnuli_best_only_refinement annuliExample (by decide) annuliExampleDoc
     annuliExamplePost (by decide)⟩

/-- **C9** counterexample: `xml_dump` is not free of side effects on its
input.  For a filter whose candidate list is not sorted by
`(annulus, aperture)`, the in-place `list.sort` leaves the caller's
list reordered: the post-call mapping differs from the input. -/
theorem CandidateAnnuli_dump_mutates_cex :
    xml_dump annuliExample = some (annuliExampleDoc, annuliExamplePost) ∧
    annuliExamplePost ≠ annuliExample := ⟨by decide, by decide⟩

/-- **C9** (amended): after a successful `xml_dump(path, annuli)` the
mapping keeps the same filters in the same order, but each per-filter
candidate list has been re-sorted in place by `(annulus, aperture)`: the
post-call list is a permutation of the original, and the mapping is
unchanged exactly when every list was already sorted. -/
theorem CandidateAnnuli_dump_post_state (annuli : AnnuliMap) (doc : AnnuliDocument)
    (post : AnnuliMap) (hdump : xml_dump annuli = some (doc, post)) :
    post = annuli.map (fun p => (p.1, sortCand p.2)) ∧
    post.map Prod.fst = annuli.map Prod.fst ∧
    (∀ pb l, (pb, l) ∈ annuli → (pb, sortCand l) ∈ post ∧ (sortCand l).Perm l) ∧
    ((∀ p ∈ annuli, List.Pairwise (fun a b => candLE a b = true) p.2) →
      post = annuli) := by
  obtain ⟨hpost, -⟩ := xml_dump_parts hdump
  refine ⟨hpost, ?_, ?_, ?_⟩
  · rw [hpost, List.map_map]
    apply List.map_congr_left
    intro p _
    rfl
  · intro pb l hmem
    refine ⟨?_, sortLE_perm candLE l⟩
    rw [hpost]
    exact List.mem_map_of_mem _ hmem
  · intro hsorted
    rw [hpost]
    conv_rhs => rw [← List.map_id annuli]
    apply List.map_congr_left
    intro p hp
    rw [show sortCand p.2 = p.2 from sortLE_of_sorted candLE p.2 (hsorted p hp)]
    simp

/-- **C9** witness (for the amended statement): the post-state
characterisation at the concrete mapping. -/
theorem CandidateAnnuli_dump_post_state_witness :
    xml_dump annuliExample = some (annuliExampleDoc, annuliExamplePost) ∧
    (annuliExamplePost = annuliExample.map (fun p => (p.1, sortCand p.2)) ∧
      annuliExamplePost.map Prod.fst = annuliExample.map Prod.fst ∧
      (∀ pb l, (pb, l) ∈ annuliExample →
        (pb, sortCand l) ∈ annuliExamplePost ∧ (sortCand l).Perm l) ∧
      ((∀ p ∈ annuliExample, List.Pairwise (fun a b => candLE a b = true) p.2) →
        annuliExamplePost = annuliExample)) :=
  ⟨by decide,
   CandidateAnnuli_dump_post_state annuliExample annuliExampleDoc annuliExamplePost
     (by decide)⟩

/-! ## The `astromatic` module

The `astromatic` module (`Pixel`, `Star`, `Catalog`) is not part of the
source tree — only its unit tests are (`src/test/test_astromatic.py`).
The definitions of this section are therefore modelled from the
specification (§4.1–4.3, §7) and cross-checked against the expected
values enumerated in the unit tests. -/

/-! ### Kernel-evaluable rational arithmetic

The field operations of `ℚ` are expressed through `mkRat` on numerators
and denominators, so that concrete instances evaluate inside the kernel;
the lemmas below identify them with the field operations. -/

/-- `a + b` on `ℚ`, via `mkRat`. -/
def ratAdd (a b : ℚ) : ℚ := mkRat (a.num * b.den + b.num * a.den) (a.den * b.den)

/-- `a - b` on `ℚ`, via `mkRat`. -/
def ratSub (a b : ℚ) : ℚ := mkRat (a.num * b.den - b.num * a.den) (a.den * b.den)

/-- `a * b` on `ℚ`, via `mkRat`. -/
def ratMul (a b : ℚ) : ℚ := mkRat (a.num * b.num) (a.den * b.den)

/-- `a / b` on `ℚ`, via `mkRat` (`0` when `b = 0`, as in Lean's field
structure). -/
def ratDiv (a b : ℚ) : ℚ :=
  if b.num < 0 then mkRat (-(a.num * (b.den : ℤ))) (a.den * b.num.natAbs)
  else mkRat (a.num * (b.den : ℤ)) (a.den * b.num.natAbs)

theorem ratAdd_eq (a b : ℚ) : ratAdd a b = a + b := by
  rw [ratAdd, Rat.mkRat_eq_div]
  have ha : ((a.den : ℚ)) ≠ 0 := Nat.cast_ne_zero.mpr a.den_nz
  have hb : ((b.den : ℚ)) ≠ 0 := Nat.cast_ne_zero.mpr b.den_nz
  conv_rhs => rw [← Rat.num_div_den a, ← Rat.num_div_den b]
  rw [div_add_div _ _ ha hb]
  push_cast
  ring_nf

theorem ratSub_eq (a b : ℚ) : ratSub a b = a - b := by
  rw [ratSub, Rat.mkRat_eq_div]
  have ha : ((a.den : ℚ)) ≠ 0 := Nat.cast_ne_zero.mpr a.den_nz
  have hb : ((b.den : ℚ)) ≠ 0 := Nat.cast_ne_zero.mpr b.den_nz
  conv_rhs => rw [← Rat.num_div_den a, ← Rat.num_div_den b]
  rw [div_sub_div _ _ ha hb]
  push_cast
  ring_nf

theorem ratMul_eq (a b : ℚ) : ratMul a b = a * b := by
  rw [ratMul, Rat.mkRat_eq_div]
  have ha : ((a.den : ℚ)) ≠ 0 := Nat.cast_ne_zero.mpr a.den_nz
  have hb : ((b.den : ℚ)) ≠ 0 := Nat.cast_ne_zero.mpr b.den_nz
  conv_rhs => rw [← Rat.num_div_den a, ← Rat.num_div_den b]
  rw [div_mul_div_comm]
  push_cast
  ring_nf

theorem ratDiv_eq (a b : ℚ) : ratDiv a b = a / b := by
  rw [ratDiv]
  have ha : ((a.den : ℚ)) ≠ 0 := Nat.cast_ne_zero.mpr a.den_nz
  have hbd : ((b.den : ℚ)) ≠ 0 := Nat.cast_ne_zero.mpr b.den_nz
  rcases lt_trichotomy b.num 0 with hb | hb | hb
  · rw [if_pos hb, Rat.mkRat_eq_div]
    have hbn : ((b.num : ℚ)) ≠ 0 := by
      exact_mod_cast Int.ne_of_lt hb
    conv_rhs => rw [← Rat.num_div_den a, ← Rat.num_div_den b]
    rw [div_div_div_comm]
    push_cast [Nat.cast_natAbs]
    rw [abs_of_neg (show ((b.num : ℚ)) < 0 by exact_mod_cast hb)]
    field_simp
    ring_nf
    simp
  · rw [if_neg (by omega), Rat.mkRat_eq_div]
    have hb0 : b = 0 := by
      rw [← Rat.num_eq_zero]; exact hb
    subst hb0
    simp
  · rw [if_neg (by omega), Rat.mkRat_eq_div]
    have hbn : ((b.num : ℚ)) ≠ 0 := by
      exact_mod_cast Int.ne_of_gt hb
    conv_rhs => rw [← Rat.num_div_den a, ← Rat.num_div_den b]
    rw [div_div_div_comm]
    push_cast [Nat.cast_natAbs]
    rw [abs_of_pos (show (0 : ℚ) < (b.num : ℚ) by exact_mod_cast hb)]
    field_simp
    ring_nf
    simp

/-- Casting a `mkRat` value into `ℝ` (also valid for a zero
denominator, where both sides are `0`). -/
theorem cast_mkRat (a : ℤ) (b : ℕ) : ((mkRat a b : ℚ) : ℝ) = (a : ℝ) / (b : ℝ) := by
  rw [Rat.mkRat_eq_div]
  push_cast
  rfl

/-! ### Error kinds and `flag_saturated` -/

/-- Modelled from the spec: the error kinds of §7 under which every
construction/validation failure of the catalog components is
classified. -/
inductive AstroError where
  | MissingResourceError
  | InvalidFormatError
  | RangeError
  | ImmutableViolationError
deriving DecidableEq, Repr

/-- Modelled from the spec: `Catalog.flag_saturated(flag)` — the flag is
an 8-bit bitmask with valid domain exactly `[0, 255]` (outside it the
call fails with the `RangeError` kind); inside the domain it returns
whether bit value 4 (the third least-significant bit) is set. -/
def flag_saturated (flag : ℤ) : Except AstroError Bool :=
  if flag < 0 ∨ 255 < flag then Except.error AstroError.RangeError
  else Except.ok (decide ((flag.toNat &&& 4) ≠ 0))

/-- The saturated flag values enumerated in
`test_astromatic.CatalogTest.test_flag_saturated`. -/
def saturatedFlags : List Nat :=
  [4, 5, 6, 7, 12, 13, 14, 15, 20, 21, 22, 23, 28,
   29, 30, 31, 36, 37, 38, 39, 44, 45, 46, 47, 52, 53, 54, 55, 60, 61, 62,
   63, 68, 69, 70, 71, 76, 77, 78, 79, 84, 85, 86, 87, 92, 93, 94, 95,
   100, 101, 102, 103, 108, 109, 110, 111, 116, 117, 118, 119, 124, 125,
   126, 127, 132, 133, 134, 135, 140, 141, 142, 143, 148, 149, 150, 151,
   156, 157, 158, 159, 164, 165, 166, 167, 172, 173, 174, 175, 180, 181,
   182, 183, 188, 189, 190, 191, 196, 197, 198, 199, 204, 205, 206, 207,
   212, 213, 214, 215, 220, 221, 222, 223, 228, 229, 230, 231, 236, 237,
   238, 239, 244, 245, 246, 247, 252, 253, 254, 255]

set_option maxRecDepth 40000 in
/-- On `[0, 255]`, having bit 4 set is the same as membership in the
test suite's enumerated saturated set. -/
theorem saturated_mem_iff : ∀ n : Nat, n < 256 → ((n &&& 4 ≠ 0) ↔ n ∈ saturatedFlags) := by
  decide

/-- **C2**: for every integer flag in `[0, 255]`, `flag_saturated`
returns exactly whether bit value 4 is set — equivalently, it returns
`true` iff the flag belongs to the test suite's enumerated saturated
set — and for every integer outside `[0, 255]` it fails with the
`RangeError` kind instead of returning a value. -/
theorem Catalog_flag_saturated_spec (flag : ℤ) :
    ((0 ≤ flag ∧ flag ≤ 255) →
      flag_saturated flag = Except.ok (decide ((flag.toNat &&& 4) ≠ 0)) ∧
      (flag_saturated flag = Except.ok true ↔ flag.toNat ∈ saturatedFlags)) ∧
    ((flag < 0 ∨ 255 < flag) →
      flag_saturated flag = Except.error AstroError.RangeError) := by
  constructor
  · rintro ⟨h0, h255⟩
    have hcond : ¬(flag < 0 ∨ 255 < flag) := by omega
    rw [flag_saturated, if_neg hcond]
    refine ⟨rfl, ?_⟩
    have hmem := saturated_mem_iff flag.toNat (by omega)
    simp only [Except.ok.injEq, decide_eq_true_eq]
    exact hmem
  · intro h
    rw [flag_saturated, if_pos h]

/-- **C2** witness: the specification instantiated at the in-range flag
`4` and the out-of-range flag `256`. -/
theorem Catalog_flag_saturated_spec_witness :
    (flag_saturated 4 = Except.ok (decide (((4 : ℤ).toNat &&& 4) ≠ 0)) ∧
      (flag_saturated 4 = Except.ok true ↔ (4 : ℤ).toNat ∈ saturatedFlags)) ∧
    flag_saturated 256 = Except.error AstroError.RangeError :=
  ⟨(Catalog_flag_saturated_spec 4).1 (by decide),
   (Catalog_flag_saturated_spec 256).2 (by decide)⟩

/-! ### The `Star` record and the catalog file model

Modelled from the spec (§4.1, §4.3, §4.4): the catalog input file is a
sequence of lines, each either a header comment declaring one column's
1-based ordinal and canonical field name, or a whitespace-delimited
numeric data row.  Numeric cells are embedded as the rationals they
denote. -/

/-- Modelled from the spec: an immutable detected-source record
(`astromatic.Star`; the name `Star` itself is taken by Mathlib's star
operation, so the embedding prefixes it; constructor field order as in the unit tests: x, y, alpha, delta,
area, mag, saturated, snr, fwhm, elongation). -/
structure AstroStar where
  x : ℚ
  y : ℚ
  alpha : ℚ
  delta : ℚ
  area : ℚ
  mag : ℚ
  saturated : Bool
  snr : ℚ
  fwhm : ℚ
  elongation : ℚ
deriving DecidableEq, Repr

/-- Modelled from the spec: one line of a catalog file — a header
comment declaring a column (`"<ordinal> <canonical-field-name>"`) or a
whitespace-delimited numeric data row. -/
inductive CatLine where
  | header (ordinal : Nat) (label : Str)
  | row (values : List ℚ)
deriving DecidableEq, Repr

/-- The declared columns of a catalog file, in file order. -/
def headersOf (lines : List CatLine) : List (Nat × Str) :=
  lines.filterMap (fun l =>
    match l with
    | CatLine.header o s => some (o, s)
    | CatLine.row _ => none)

/-- The data rows of a catalog file, in file order. -/
def rowsOf (lines : List CatLine) : List (List ℚ) :=
  lines.filterMap (fun l =>
    match l with
    | CatLine.header _ _ => none
    | CatLine.row vs => some vs)

/-- First declared ordinal for a given canonical field name. -/
def findColAux : List (Nat × Str) → Str → Option Nat
  | [], _ => none
  | (o, s) :: rest, label => if s = label then some o else findColAux rest label

/-- The column ordinal declared for a canonical field name, if any. -/
def findColumn (lines : List CatLine) (label : Str) : Option Nat :=
  findColAux (headersOf lines) label

/-- The canonical field names the parser requires, in the order the
parser resolves them: x, y, right ascension, declination, isophotal
area, magnitude, flags, flux, flux error, FWHM-proxy (half-width
radius), elongation. -/
def requiredLabels : List Str :=
  ["X_IMAGE".data, "Y_IMAGE".data, "ALPHA_SKY".data, "DELTA_SKY".data,
   "ISOAREAF_IMAGE".data, "MAG_AUTO".data, "FLAGS".data, "FLUX_ISO".data,
   "FLUXERR_ISO".data, "FLUX_RADIUS".data, "ELONGATION".data]

/-- The resolved 1-based ordinals of the eleven required columns. -/
structure Columns where
  x : Nat
  y : Nat
  alpha : Nat
  delta : Nat
  area : Nat
  mag : Nat
  flags : Nat
  flux : Nat
  fluxErr : Nat
  fluxRadius : Nat
  elongation : Nat
deriving DecidableEq, Repr

/-- Resolve every required column's ordinal (failing as soon as one is
absent — in particular whenever the file has no header lines at
all). -/
def resolveColumns (lines : List CatLine) : Option (List Nat) :=
  mapO (findColumn lines) requiredLabels

/-- Except-valued map (failing with the first error), used to embed
Python raising mid-iteration. -/
def mapE (f : α → Except ε β) : List α → Except ε (List β)
  | [] => Except.ok []
  | a :: rest =>
    match f a, mapE f rest with
    | Except.ok b, Except.ok bs => Except.ok (b :: bs)
    | Except.error e, _ => Except.error e
    | Except.ok _, Except.error e => Except.error e

/-- Modelled from the spec: build one `AstroStar` from one data row given the
resolved column ordinals.  `mag` is the magnitude cell, `snr` is flux
divided by flux error, `fwhm` is twice the half-width radius cell,
`saturated` is `flag_saturated` of the flags cell (which must be an
integer).  A row too short for a resolved ordinal, or a non-integral
flags cell, is malformed input. -/
def starOfRow (cols : Columns) (row : List ℚ) : Except AstroError AstroStar :=
  match row[cols.x - 1]?, row[cols.y - 1]?, row[cols.alpha - 1]?, row[cols.delta - 1]?,
        row[cols.area - 1]?, row[cols.mag - 1]?, row[cols.flags - 1]? with
  | some vx, some vy, some va, some vd, some varea, some vmag, some vflags =>
    (match row[cols.flux - 1]?, row[cols.fluxErr - 1]?, row[cols.fluxRadius - 1]?,
           row[cols.elongation - 1]? with
     | some vflux, some vfluxErr, some vfr, some velong =>
       if vflags.den = 1 then
         match flag_saturated vflags.num with
         | Except.ok sat =>
           Except.ok { x := vx, y := vy, alpha := va, delta := vd, area := varea,
                       mag := vmag, saturated := sat,
                       snr := ratDiv vflux vfluxErr, fwhm := ratMul (mkRat 2 1) vfr,
                       elongation := velong }
         | Except.error e => Except.error e
       else Except.error AstroError.InvalidFormatError
     | _, _, _, _ => Except.error AstroError.InvalidFormatError)
  | _, _, _, _, _, _, _ => Except.error AstroError.InvalidFormatError

/-- Modelled from the spec: parse the lines of a catalog file — resolve
the required columns from the header comments (failing with
`InvalidFormatError` if any is absent, in particular when there are no
headers at all), then build one `AstroStar` per data row, in row order. -/
def Catalog_parse (lines : List CatLine) : Except AstroError (List AstroStar) :=
  match resolveColumns lines with
  | some [cx, cy, ca, cd, car, cm, cf, cfx, cfe, cfr, ce] =>
    mapE (starOfRow { x := cx, y := cy, alpha := ca, delta := cd, area := car,
                      mag := cm, flags := cf, flux := cfx, fluxErr := cfe,
                      fluxRadius := cfr, elongation := ce }) (rowsOf lines)
  | _ => Except.error AstroError.InvalidFormatError

/-- Modelled from the spec: `Catalog(path)` — a nonexistent or
unreadable path (embedded as `none`) fails with the
`MissingResourceError` kind; otherwise the file's lines are parsed. -/
def Catalog_construct (input : Option (List CatLine)) : Except AstroError (List AstroStar) :=
  match input with
  | none => Except.error AstroError.MissingResourceError
  | some lines => Catalog_parse lines

deriving instance DecidableEq for Except

theorem mapE_length {f : α → Except ε β} :
    ∀ {l : List α} {bs : List β}, mapE f l = Except.ok bs → bs.length = l.length := by
  intro l
  induction l with
  | nil =>
    intro bs h
    simp only [mapE, Except.ok.injEq] at h
    subst h
    rfl
  | cons a rest ih =>
    intro bs h
    simp only [mapE] at h
    cases hfa : f a with
    | error e => rw [hfa] at h; exact Except.noConfusion h
    | ok b =>
      rw [hfa] at h
      cases hrest : mapE f rest with
      | error e => rw [hrest] at h; exact Except.noConfusion h
      | ok bs2 =>
        rw [hrest] at h
        simp only [Except.ok.injEq] at h
        subst h
        simp [ih hrest]

theorem mapE_get {f : α → Except ε β} :
    ∀ {l : List α} {bs : List β}, mapE f l = Except.ok bs →
      ∀ (i : Nat) (a : α), l[i]? = some a → ∃ b, bs[i]? = some b ∧ f a = Except.ok b := by
  intro l
  induction l with
  | nil =>
    intro bs _ i a ha
    simp at ha
  | cons x rest ih =>
    intro bs h i a ha
    simp only [mapE] at h
    cases hfa : f x with
    | error e => rw [hfa] at h; exact Except.noConfusion h
    | ok b =>
      rw [hfa] at h
      cases hrest : mapE f rest with
      | error e => rw [hrest] at h; exact Except.noConfusion h
      | ok bs2 =>
        rw [hrest] at h
        simp only [Except.ok.injEq] at h
        subst h
        cases i with
        | zero =>
          simp only [List.getElem?_cons_zero, Option.some_inj] at ha
          subst ha
          exact ⟨b, by simp, hfa⟩
        | succ j =>
          simp only [List.getElem?_cons_succ] at ha
          obtain ⟨b2, hb2, hfb2⟩ := ih hrest j a ha
          exact ⟨b2, by simpa using hb2, hfb2⟩

theorem mkRat_two : mkRat 2 1 = (2 : ℚ) := by
  norm_num [Rat.mkRat_eq_div]

/-- The derived-field contract of one parsed row: every field of the
star comes from the declared column of the row, with `snr` the flux
cell divided by the flux-error cell, `fwhm` twice the half-width radius
cell and `saturated` the `flag_saturated` of the flags cell. -/
def CatalogRowDerived (cols : Columns) (row : List ℚ) (st : AstroStar) : Prop :=
  (∀ v, row[cols.x - 1]? = some v → st.x = v) ∧
  (∀ v, row[cols.y - 1]? = some v → st.y = v) ∧
  (∀ v, row[cols.alpha - 1]? = some v → st.alpha = v) ∧
  (∀ v, row[cols.delta - 1]? = some v → st.delta = v) ∧
  (∀ v, row[cols.area - 1]? = some v → st.area = v) ∧
  (∀ v, row[cols.mag - 1]? = some v → st.mag = v) ∧
  (∀ v, row[cols.flags - 1]? = some v → flag_saturated v.num = Except.ok st.saturated) ∧
  (∀ v w, row[cols.flux - 1]? = some v → row[cols.fluxErr - 1]? = some w →
    st.snr = v / w) ∧
  (∀ v, row[cols.fluxRadius - 1]? = some v → st.fwhm = 2 * v) ∧
  (∀ v, row[cols.elongation - 1]? = some v → st.elongation = v)

theorem starOfRow_fields {cols : Columns} {row : List ℚ} {st : AstroStar}
    (h : starOfRow cols row = Except.ok st) : CatalogRowDerived cols row st := by
  rw [starOfRow] at h
  split at h <;> try exact Except.noConfusion h
  rename_i vx vy va vd varea vmag vflags hx hy hal hde har hm hf
  split at h <;> try exact Except.noConfusion h
  rename_i vflux vfluxErr vfr velong hfx hfe hfrad hel
  split at h <;> try exact Except.noConfusion h
  split at h <;> try exact Except.noConfusion h
  rename_i sat hsat
  injection h with h2
  subst h2
  refine ⟨?_, ?_, ?_, ?_, ?_, ?_, ?_, ?_, ?_, ?_⟩
  · intro v hv; rw [hx] at hv; simp only [Option.some.injEq] at hv; exact hv
  · intro v hv; rw [hy] at hv; simp only [Option.some.injEq] at hv; exact hv
  · intro v hv; rw [hal] at hv; simp only [Option.some.injEq] at hv; exact hv
  · intro v hv; rw [hde] at hv; simp only [Option.some.injEq] at hv; exact hv
  · intro v hv; rw [har] at hv; simp only [Option.some.injEq] at hv; exact hv
  · intro v hv; rw [hm] at hv; simp only [Option.some.injEq] at hv; exact hv
  · intro v hv
    rw [hf] at hv
    simp only [Option.some.injEq] at hv
    rw [← hv]
    exact hsat
  · intro v w hv hw
    rw [hfx] at hv
    rw [hfe] at hw
    simp only [Option.some.injEq] at hv hw
    rw [← hv, ← hw]
    exact ratDiv_eq vflux vfluxErr
  · intro v hv
    rw [hfrad] at hv
    simp only [Option.some.injEq] at hv
    rw [← hv]
    show ratMul (mkRat 2 1) vfr = 2 * vfr
    rw [ratMul_eq, mkRat_two]
  · intro v hv; rw [hel] at hv; simp only [Option.some.injEq] at hv; exact hv

/-- The success contract of `Catalog_parse`: as many stars as data
rows, in row order, each satisfying the derived-field contract against
the resolved columns. -/
def CatalogParseSpec (lines : List CatLine) (stars : List AstroStar) : Prop :=
  stars.length = (rowsOf lines).length ∧
  ∃ cols : Columns,
    resolveColumns lines = some [cols.x, cols.y, cols.alpha, cols.delta, cols.area,
      cols.mag, cols.flags, cols.flux, cols.fluxErr, cols.fluxRadius, cols.elongation] ∧
    ∀ (i : Nat) (row : List ℚ), (rowsOf lines)[i]? = some row →
      ∃ st, stars[i]? = some st ∧ CatalogRowDerived cols row st

/-- **C6**: every successfully parsed catalog has exactly one star per
data row, in row order, and each star's fields are derived from its
row's declared columns: `mag` is the magnitude cell, `snr` is the flux
cell divided by the flux-error cell, `fwhm` is twice the half-width
radius cell, `saturated` is `flag_saturated` of the flags cell (and
x/y/alpha/delta/area/elongation are the corresponding cells). -/
theorem Catalog_parse_derives (lines : List CatLine) (stars : List AstroStar)
    (h : Catalog_parse lines = Except.ok stars) : CatalogParseSpec lines stars := by
  rw [Catalog_parse] at h
  split at h <;> try exact Except.noConfusion h
  rename_i cx cy ca cd car cm cf cfx cfe cfr ce heq
  refine ⟨mapE_length h,
    { x := cx, y := cy, alpha := ca, delta := cd, area := car, mag := cm,
      flags := cf, flux := cfx, fluxErr := cfe, fluxRadius := cfr,
      elongation := ce }, heq, ?_⟩
  intro i row hrow
  obtain ⟨st, hst, hfield⟩ := mapE_get h i row hrow
  exact ⟨st, hst, starOfRow_fields hfield⟩

/-- A two-row catalog with the cell values of rows 0 and 126 of the
test suite's 127-row sample (the sample file itself is not in the
source tree). -/
def sampleCatalog : List CatLine :=
  [CatLine.header 1 "X_IMAGE".data, CatLine.header 2 "Y_IMAGE".data,
   CatLine.header 3 "ALPHA_SKY".data, CatLine.header 4 "DELTA_SKY".data,
   CatLine.header 5 "ISOAREAF_IMAGE".data, CatLine.header 6 "MAG_AUTO".data,
   CatLine.header 7 "FLAGS".data, CatLine.header 8 "FLUX_ISO".data,
   CatLine.header 9 "FLUXERR_ISO".data, CatLine.header 10 "FLUX_RADIUS".data,
   CatLine.header 11 "ELONGATION".data,
   CatLine.row [mkRat 844359 1000, mkRat 434109 1000, mkRat 1002910553 10000000,
     mkRat 94697032 10000000, mkRat 8085 1, mkRat 82460 10000, mkRat 0 1,
     mkRat 8545557 1, mkRat 1281109 100, mkRat 6334 1000, mkRat 1562 1000],
   CatLine.row [mkRat 107033 1000, mkRat 19535 10, mkRat 1001971009 10000000,
     mkRat 92796855 10000000, mkRat 10 1, mkRat 159567 10000, mkRat 4 1,
     mkRat 3833773 1000, mkRat 4505532 10000, mkRat 1206 1000, mkRat 1613 1000]]

/-- The stars `Catalog_parse` produces for `sampleCatalog`. -/
def sampleStars : List AstroStar :=
  [{ x := mkRat 844359 1000, y := mkRat 434109 1000, alpha := mkRat 1002910553 10000000,
     delta := mkRat 94697032 10000000, area := mkRat 8085 1, mag := mkRat 82460 10000,
     saturated := false, snr := mkRat 854555700 1281109, fwhm := mkRat 12668 1000,
     elongation := mkRat 1562 1000 },
   { x := mkRat 107033 1000, y := mkRat 19535 10, alpha := mkRat 1001971009 10000000,
     delta := mkRat 92796855 10000000, area := mkRat 10 1, mag := mkRat 159567 10000,
     saturated := true, snr := mkRat 38337730 4505532, fwhm := mkRat 2412 1000,
     elongation := mkRat 1613 1000 }]

/-- **C6** witness: the parse contract at the concrete two-row
catalog (row 0 unsaturated with `snr = 8545557 / 12811.09`, row 1
saturated). -/
theorem Catalog_parse_derives_witness : CatalogParseSpec sampleCatalog sampleStars :=
  Catalog_parse_derives sampleCatalog sampleStars (by decide)

theorem mapO_eq_none {f : α → Option β} :
    ∀ {l : List α} {a : α}, a ∈ l → f a = none → mapO f l = none := by
  intro l
  induction l with
  | nil => intro a ha; simp at ha
  | cons x rest ih =>
    intro a ha hfa
    rcases List.mem_cons.mp ha with rfl | ha2
    · simp only [mapO, hfa]
    · simp only [mapO, ih ha2 hfa]
      cases f x <;> rfl

/-- A data-only catalog (saved without the ASCII-header convention): no
header comment lines at all. -/
def noHeaderLines : List CatLine := [CatLine.row [mkRat 1 1]]

/-- A catalog whose headers lack most of the required columns. -/
def incompleteLines : List CatLine :=
  [CatLine.header 1 "X_IMAGE".data, CatLine.row [mkRat 1 1]]

/-- **C7**: catalog construction fails exactly as classified — a
nonexistent/unreadable path fails with the `MissingResourceError` kind;
a readable file lacking one of the required canonical columns, or
containing no header comment lines at all, fails with the
`InvalidFormatError` kind; and in none of these cases is any (even
partially built) star list returned. -/
theorem Catalog_construct_errors :
    (Catalog_construct none = Except.error AstroError.MissingResourceError ∧
      ∀ stars, Catalog_construct none ≠ Except.ok stars) ∧
    ∀ lines : List CatLine,
      (headersOf lines = [] ∨ ∃ lbl ∈ requiredLabels, findColumn lines lbl = none) →
      Catalog_construct (some lines) = Except.error AstroError.InvalidFormatError ∧
      ∀ stars, Catalog_construct (some lines) ≠ Except.ok stars := by
  constructor
  · exact ⟨rfl, fun stars h => Except.noConfusion h⟩
  · intro lines hbad
    have hnone : resolveColumns lines = none := by
      rcases hbad with hemp | ⟨lbl, hmem, hfind⟩
      · apply mapO_eq_none (a := "X_IMAGE".data) (by simp [requiredLabels])
        rw [findColumn, hemp]
        rfl
      · exact mapO_eq_none hmem hfind
    have herr : Catalog_construct (some lines) =
        Except.error AstroError.InvalidFormatError := by
      show Catalog_parse lines = Except.error AstroError.InvalidFormatError
      rw [Catalog_parse, hnone]
    exact ⟨herr, fun stars h => by rw [herr] at h; exact Except.noConfusion h⟩

/-- **C7** witness: the classification at a missing file, a file with
no header lines, and a file missing the `Y_IMAGE` column. -/
theorem Catalog_construct_errors_witness :
    (Catalog_construct none = Except.error AstroError.MissingResourceError ∧
      ∀ stars, Catalog_construct none ≠ Except.ok stars) ∧
    Catalog_construct (some noHeaderLines) = Except.error AstroError.InvalidFormatError ∧
    Catalog_construct (some incompleteLines) = Except.error AstroError.InvalidFormatError :=
  ⟨Catalog_construct_errors.1,
   (Catalog_construct_errors.2 noHeaderLines (Or.inl (by decide))).1,
   (Catalog_construct_errors.2 incompleteLines
      (Or.inr ⟨"Y_IMAGE".data, by decide, by decide⟩)).1⟩

/-! ### Certified evaluation of `sin`/`cos` at rational points

`Star.angular_distance` computes with `sin`, `cos`, `arcsin`, `sqrt`
and `π` over the reals.  To check the spec's reference values the
development below produces certified rational enclosures: a Taylor base
enclosure on `[0, 1]` (`Real.sin_bound` / `Real.cos_bound`) refined by
argument halving and the double-angle identities, all computed with the
kernel-evaluable `mkRat` arithmetic above. -/

/-- A rational enclosure `(sin lo, sin hi, cos lo, cos hi)` of the sine
and cosine of a real point. -/
def SinCosIn (x : ℝ) (r : ℚ × ℚ × ℚ × ℚ) : Prop :=
  (r.1 : ℝ) ≤ Real.sin x ∧ Real.sin x ≤ (r.2.1 : ℝ) ∧
  (r.2.2.1 : ℝ) ≤ Real.cos x ∧ Real.cos x ≤ (r.2.2.2 : ℝ)

/-- Taylor enclosure of `(sin x, cos x)` for `0 ≤ x ≤ 1`:
`x - x³/6` and `1 - x²/2` with two-sided error `x⁴·(5/96)`. -/
def sinCosBase (x : ℚ) : ℚ × ℚ × ℚ × ℚ :=
  let x2 := ratMul x x
  let x3 := ratMul x2 x
  let x4 := ratMul x2 x2
  let e := ratMul x4 (mkRat 5 96)
  let s := ratSub x (ratDiv x3 (mkRat 6 1))
  let c := ratSub (mkRat 1 1) (ratDiv x2 (mkRat 2 1))
  (ratSub s e, ratAdd s e, ratSub c e, ratAdd c e)

/-- Enclosure of `(sin x, cos x)` for `0 ≤ x ≤ 2`, `x ≤ 2^k`: the base
Taylor enclosure at `x / 2^k`, refined back up with `sin 2y = 2 sin y
cos y` and `cos 2y = 1 - 2 sin² y` (enclosure endpoints clamped at `0`,
sound because every intermediate point lies in `[0, π/2]`). -/
def sinCosRefine : Nat → ℚ → ℚ × ℚ × ℚ × ℚ
  | 0, x => sinCosBase x
  | k + 1, x =>
    let r := sinCosRefine k (ratDiv x (mkRat 2 1))
    let slo := max 0 r.1
    let shi := r.2.1
    let clo := max 0 r.2.2.1
    let chi := r.2.2.2
    (ratMul (mkRat 2 1) (ratMul slo clo), ratMul (mkRat 2 1) (ratMul shi chi),
     ratSub (mkRat 1 1) (ratMul (mkRat 2 1) (ratMul shi shi)),
     ratSub (mkRat 1 1) (ratMul (mkRat 2 1) (ratMul slo slo)))

theorem mkRat_one : mkRat 1 1 = (1 : ℚ) := by
  norm_num [Rat.mkRat_eq_div]

theorem sinCosBase_sound (x : ℚ) (h0 : 0 ≤ x) (h1 : x ≤ mkRat 1 1) :
    SinCosIn (x : ℝ) (sinCosBase x) := by
  rw [mkRat_one] at h1
  have hx1 : |(x : ℝ)| ≤ 1 := by
    rw [abs_of_nonneg (by exact_mod_cast h0)]
    exact_mod_cast h1
  have hs := abs_le.mp (Real.sin_bound hx1)
  have hc := abs_le.mp (Real.cos_bound hx1)
  rw [abs_of_nonneg (by exact_mod_cast h0)] at hs hc
  unfold SinCosIn sinCosBase
  simp only [ratSub_eq, ratAdd_eq, ratMul_eq, ratDiv_eq, mkRat_one,
    show (mkRat 5 96 : ℚ) = 5 / 96 from by norm_num [Rat.mkRat_eq_div],
    show (mkRat 6 1 : ℚ) = 6 from by norm_num [Rat.mkRat_eq_div],
    show (mkRat 2 1 : ℚ) = 2 from by norm_num [Rat.mkRat_eq_div]]
  push_cast
  refine ⟨?_, ?_, ?_, ?_⟩ <;> nlinarith [hs.1, hs.2, hc.1, hc.2]

theorem sinCosRefine_sound (k : Nat) (x : ℚ) (h0 : 0 ≤ x)
    (hk : x ≤ mkRat (2 ^ k) 1) (h2 : x ≤ mkRat 2 1) :
    SinCosIn (x : ℝ) (sinCosRefine k x) := by
  induction k generalizing x with
  | zero => exact sinCosBase_sound x h0 (by simpa using hk)
  | succ k ih =>
    have hkQ : x ≤ ((2 ^ (k + 1) : ℤ) : ℚ) := by
      rw [show ((2 ^ (k + 1) : ℤ) : ℚ) = mkRat (2 ^ (k + 1)) 1 from by
        norm_num [Rat.mkRat_eq_div]]
      exact hk
    have h2Q : x ≤ 2 := by rw [← mkRat_two]; exact h2
    set y : ℚ := ratDiv x (mkRat 2 1) with hy
    have hyval : y = x / 2 := by rw [hy, ratDiv_eq, mkRat_two]
    have hy0 : 0 ≤ y := by rw [hyval]; positivity
    have hyk : y ≤ mkRat (2 ^ k) 1 := by
      rw [hyval, show (mkRat (2 ^ k) 1 : ℚ) = ((2 ^ k : ℤ) : ℚ) from by
        norm_num [Rat.mkRat_eq_div]]
      rw [div_le_iff₀ (by norm_num : (0 : ℚ) < 2)]
      push_cast at hkQ ⊢
      calc x ≤ 2 ^ (k + 1) := hkQ
        _ = 2 ^ k * 2 := by ring
    have hy2 : y ≤ mkRat 2 1 := by
      rw [hyval, mkRat_two]
      linarith
    have hIH := ih y hy0 hyk hy2
    obtain ⟨hs1, hs2, hc1, hc2⟩ := hIH
    have hy1 : y ≤ 1 := by
      rw [hyval]
      linarith
    have hy0R : (0 : ℝ) ≤ (y : ℝ) := by exact_mod_cast hy0
    have hy1R : (y : ℝ) ≤ 1 := by exact_mod_cast hy1
    have hpihalf : (1 : ℝ) ≤ Real.pi / 2 := by nlinarith [Real.pi_gt_d6]
    have hsin0 : 0 ≤ Real.sin (y : ℝ) :=
      Real.sin_nonneg_of_nonneg_of_le_pi hy0R
        (by nlinarith [Real.pi_gt_d6])
    have hcos0 : 0 ≤ Real.cos (y : ℝ) :=
      Real.cos_nonneg_of_mem_Icc ⟨by nlinarith [Real.pi_gt_d6], by linarith⟩
    have hxy : (x : ℝ) = 2 * (y : ℝ) := by
      rw [hyval]
      push_cast
      ring
    have hsin2 : Real.sin (x : ℝ) = 2 * Real.sin (y : ℝ) * Real.cos (y : ℝ) := by
      rw [hxy, Real.sin_two_mul]
    have hcos2 : Real.cos (x : ℝ) = 1 - 2 * Real.sin (y : ℝ) ^ 2 := by
      rw [hxy]
      linear_combination Real.cos_two_mul (y : ℝ) +
        2 * Real.sin_sq_add_cos_sq (y : ℝ)
    have hsA : max (0 : ℝ) (((sinCosRefine k y).1 : ℚ) : ℝ) ≤ Real.sin (y : ℝ) :=
      max_le hsin0 hs1
    have hsA0 : (0 : ℝ) ≤ max (0 : ℝ) (((sinCosRefine k y).1 : ℚ) : ℝ) :=
      le_max_left _ _
    have hcA : max (0 : ℝ) (((sinCosRefine k y).2.2.1 : ℚ) : ℝ) ≤ Real.cos (y : ℝ) :=
      max_le hcos0 hc1
    have hcA0 : (0 : ℝ) ≤ max (0 : ℝ) (((sinCosRefine k y).2.2.1 : ℚ) : ℝ) :=
      le_max_left _ _
    show SinCosIn (x : ℝ) (sinCosRefine (k + 1) x)
    simp only [sinCosRefine]
    rw [← hy]
    refine ⟨?_, ?_, ?_, ?_⟩
    · simp only [ratMul_eq, mkRat_two]
      push_cast [Rat.cast_max]
      rw [hsin2]
      nlinarith [mul_le_mul hsA hcA hcA0 (le_trans hsA0 hsA)]
    · simp only [ratMul_eq, mkRat_two]
      push_cast [Rat.cast_max]
      rw [hsin2]
      nlinarith [mul_le_mul hs2 hc2 hcos0 (le_trans hsin0 hs2)]
    · simp only [ratMul_eq, ratSub_eq, mkRat_two, mkRat_one]
      push_cast [Rat.cast_max]
      rw [hcos2]
      nlinarith [mul_self_le_mul_self hsin0 hs2]
    · simp only [ratMul_eq, ratSub_eq, mkRat_two, mkRat_one]
      push_cast [Rat.cast_max]
      rw [hcos2]
      nlinarith [mul_self_le_mul_self hsA0 hsA]

/-- Rational lower bound of `π` (20 decimal digits). -/
def piLoQ : ℚ := mkRat 314159265358979323846 (10 ^ 20)

/-- Rational upper bound of `π` (20 decimal digits). -/
def piHiQ : ℚ := mkRat 314159265358979323847 (10 ^ 20)

theorem piLoQ_lt_pi : ((piLoQ : ℚ) : ℝ) < Real.pi := by
  rw [piLoQ, cast_mkRat]
  have h := Real.pi_gt_d20
  norm_num at h ⊢
  linarith

theorem pi_lt_piHiQ : Real.pi < ((piHiQ : ℚ) : ℝ) := by
  rw [piHiQ, cast_mkRat]
  have h := Real.pi_lt_d20
  norm_num at h ⊢
  linarith

/-- Transport an enclosure pair at the rational endpoints `x1 ≤ c·π ≤ x2`
to the point `c·π` itself, using the monotonicity of `sin` and
antitonicity of `cos` on `[0, π/2]` ⊇ `[0, 1.5707]`. -/
theorem sinCosIn_pi_mul (c x1 x2 : ℚ) (r1 r2 : ℚ × ℚ × ℚ × ℚ)
    (h1 : SinCosIn (x1 : ℝ) r1) (h2 : SinCosIn (x2 : ℝ) r2)
    (hc : 0 ≤ c) (hx10 : 0 ≤ x1)
    (hx1 : x1 ≤ ratMul c piLoQ) (hx2 : ratMul c piHiQ ≤ x2)
    (hx2b : x2 ≤ mkRat 15707 10000) :
    SinCosIn ((c : ℝ) * Real.pi) (r1.1, r2.2.1, r2.2.2.1, r1.2.2.2) := by
  have hcR : (0 : ℝ) ≤ (c : ℝ) := by exact_mod_cast hc
  have hy1 : (x1 : ℝ) ≤ (c : ℝ) * Real.pi := by
    calc (x1 : ℝ) ≤ (c : ℝ) * ((piLoQ : ℚ) : ℝ) := by
          exact_mod_cast (ratMul_eq c piLoQ) ▸ hx1
      _ ≤ (c : ℝ) * Real.pi := by
          exact mul_le_mul_of_nonneg_left piLoQ_lt_pi.le hcR
  have hy2 : (c : ℝ) * Real.pi ≤ (x2 : ℝ) := by
    calc (c : ℝ) * Real.pi ≤ (c : ℝ) * ((piHiQ : ℚ) : ℝ) := by
          exact mul_le_mul_of_nonneg_left pi_lt_piHiQ.le hcR
      _ ≤ (x2 : ℝ) := by
          exact_mod_cast (ratMul_eq c piHiQ) ▸ hx2
  have hx10R : (0 : ℝ) ≤ (x1 : ℝ) := by exact_mod_cast hx10
  have hx2bR : (x2 : ℝ) ≤ 1.5707 := by
    calc (x2 : ℝ) ≤ ((mkRat 15707 10000 : ℚ) : ℝ) := by exact_mod_cast hx2b
      _ = 1.5707 := by rw [cast_mkRat]; norm_num
  have hhalf : (1.5707 : ℝ) < Real.pi / 2 := by
    nlinarith [Real.pi_gt_d6]
  have hm1 : (x1 : ℝ) ∈ Set.Icc (-(Real.pi / 2)) (Real.pi / 2) := by
    constructor
    · nlinarith [Real.pi_gt_d6]
    · linarith
  have hmy : (c : ℝ) * Real.pi ∈ Set.Icc (-(Real.pi / 2)) (Real.pi / 2) := by
    constructor
    · nlinarith [Real.pi_gt_d6]
    · linarith
  have hm2 : (x2 : ℝ) ∈ Set.Icc (-(Real.pi / 2)) (Real.pi / 2) := by
    constructor
    · nlinarith [Real.pi_gt_d6]
    · linarith
  have hn1 : (x1 : ℝ) ∈ Set.Icc (0 : ℝ) Real.pi := by
    constructor
    · exact hx10R
    · nlinarith [Real.pi_gt_d6]
  have hny : (c : ℝ) * Real.pi ∈ Set.Icc (0 : ℝ) Real.pi := by
    constructor
    · linarith
    · nlinarith [Real.pi_gt_d6]
  have hn2 : (x2 : ℝ) ∈ Set.Icc (0 : ℝ) Real.pi := by
    constructor
    · linarith
    · nlinarith [Real.pi_gt_d6]
  have hsmono1 := Real.strictMonoOn_sin.monotoneOn hm1 hmy hy1
  have hsmono2 := Real.strictMonoOn_sin.monotoneOn hmy hm2 hy2
  have hcanti1 := Real.strictAntiOn_cos.antitoneOn hn1 hny hy1
  have hcanti2 := Real.strictAntiOn_cos.antitoneOn hny hn2 hy2
  exact ⟨le_trans h1.1 hsmono1, le_trans hsmono2 h2.2.1,
    le_trans h2.2.2.1 hcanti2, le_trans hcanti1 h1.2.2.2⟩

/-- A rational enclosure of a real value. -/
def In (x : ℝ) (lo hi : ℚ) : Prop := (lo : ℝ) ≤ x ∧ x ≤ (hi : ℝ)

theorem In.weaken {x : ℝ} {lo hi lo2 hi2 : ℚ} (h : In x lo hi)
    (h1 : lo2 ≤ lo) (h2 : hi ≤ hi2) : In x lo2 hi2 :=
  ⟨le_trans (by exact_mod_cast h1) h.1, le_trans h.2 (by exact_mod_cast h2)⟩

theorem In.addI {x y : ℝ} {a b u v : ℚ} (hx : In x a b) (hy : In y u v) :
    In (x + y) (ratAdd a u) (ratAdd b v) := by
  constructor
  · rw [ratAdd_eq]
    push_cast
    exact add_le_add hx.1 hy.1
  · rw [ratAdd_eq]
    push_cast
    exact add_le_add hx.2 hy.2

theorem In.mulNN {x y : ℝ} {a b u v : ℚ} (hx : In x a b) (hy : In y u v)
    (ha : 0 ≤ a) (hu : 0 ≤ u) : In (x * y) (ratMul a u) (ratMul b v) := by
  have haR : (0 : ℝ) ≤ (a : ℝ) := by exact_mod_cast ha
  have huR : (0 : ℝ) ≤ (u : ℝ) := by exact_mod_cast hu
  constructor
  · rw [ratMul_eq]
    push_cast
    exact mul_le_mul hx.1 hy.1 huR (le_trans haR hx.1)
  · rw [ratMul_eq]
    push_cast
    exact mul_le_mul hx.2 hy.2 (le_trans huR hy.1) (le_trans haR (le_trans hx.1 hx.2))

theorem In.sqNN {x : ℝ} {a b : ℚ} (hx : In x a b) (ha : 0 ≤ a) :
    In (x ^ 2) (ratMul a a) (ratMul b b) := by
  have haR : (0 : ℝ) ≤ (a : ℝ) := by exact_mod_cast ha
  have hx0 : (0 : ℝ) ≤ x := le_trans haR hx.1
  constructor
  · rw [ratMul_eq]
    push_cast
    nlinarith [mul_self_le_mul_self haR hx.1]
  · rw [ratMul_eq]
    push_cast
    nlinarith [mul_self_le_mul_self hx0 hx.2]

theorem In.sqrtI {x : ℝ} {a b c d : ℚ} (hx : In x a b) (hc : 0 ≤ c)
    (h1 : ratMul c c ≤ a) (h2 : b ≤ ratMul d d) (hd : 0 ≤ d) :
    In (Real.sqrt x) c d := by
  have hcR : (0 : ℝ) ≤ (c : ℝ) := by exact_mod_cast hc
  have hdR : (0 : ℝ) ≤ (d : ℝ) := by exact_mod_cast hd
  have h1R : ((c : ℝ)) ^ 2 ≤ x := by
    have : ((ratMul c c : ℚ) : ℝ) ≤ (a : ℝ) := by exact_mod_cast h1
    rw [ratMul_eq] at this
    push_cast at this
    nlinarith [hx.1]
  have h2R : x ≤ ((d : ℝ)) ^ 2 := by
    have : ((b : ℚ) : ℝ) ≤ ((ratMul d d : ℚ) : ℝ) := by exact_mod_cast h2
    rw [ratMul_eq] at this
    push_cast at this
    nlinarith [hx.2]
  constructor
  · calc ((c : ℝ)) = Real.sqrt (((c : ℝ)) ^ 2) := (Real.sqrt_sq hcR).symm
      _ ≤ Real.sqrt x := Real.sqrt_le_sqrt h1R
  · calc Real.sqrt x ≤ Real.sqrt (((d : ℝ)) ^ 2) := Real.sqrt_le_sqrt h2R
      _ = (d : ℝ) := Real.sqrt_sq hdR

/-- Bracket `arcsin x` between two rational points `t1`, `t2` whose
sines are certified to lie below resp. above the enclosure of `x`. -/
theorem arcsin_bracket {x : ℝ} {a b t1 t2 : ℚ} {r1 r2 : ℚ × ℚ × ℚ × ℚ}
    (hx : In x a b)
    (h1 : SinCosIn (t1 : ℝ) r1) (h2 : SinCosIn (t2 : ℝ) r2)
    (hs1 : r1.2.1 ≤ a) (hs2 : b ≤ r2.1)
    (ht1 : 0 ≤ t1) (ht2 : t2 ≤ mkRat 15707 10000) (ht12 : t1 ≤ t2) :
    In (Real.arcsin x) t1 t2 := by
  have ht1R : (0 : ℝ) ≤ (t1 : ℝ) := by exact_mod_cast ht1
  have ht12R : (t1 : ℝ) ≤ (t2 : ℝ) := by exact_mod_cast ht12
  have ht2R : (t2 : ℝ) ≤ 1.5707 := by
    calc (t2 : ℝ) ≤ ((mkRat 15707 10000 : ℚ) : ℝ) := by exact_mod_cast ht2
      _ = 1.5707 := by rw [cast_mkRat]; norm_num
  have hhalf : (1.5707 : ℝ) < Real.pi / 2 := by nlinarith [Real.pi_gt_d6]
  have harc1 : Real.arcsin (Real.sin (t1 : ℝ)) = (t1 : ℝ) :=
    Real.arcsin_sin (by nlinarith [Real.pi_gt_d6]) (by linarith)
  have harc2 : Real.arcsin (Real.sin (t2 : ℝ)) = (t2 : ℝ) :=
    Real.arcsin_sin (by nlinarith [Real.pi_gt_d6]) (by linarith)
  constructor
  · calc (t1 : ℝ) = Real.arcsin (Real.sin (t1 : ℝ)) := harc1.symm
      _ ≤ Real.arcsin x := by
          apply Real.monotone_arcsin
          calc Real.sin (t1 : ℝ) ≤ (r1.2.1 : ℝ) := h1.2.1
            _ ≤ (a : ℝ) := by exact_mod_cast hs1
            _ ≤ x := hx.1
  · calc Real.arcsin x ≤ Real.arcsin (Real.sin (t2 : ℝ)) := by
          apply Real.monotone_arcsin
          calc x ≤ (b : ℝ) := hx.2
            _ ≤ (r2.1 : ℝ) := by exact_mod_cast hs2
            _ ≤ Real.sin (t2 : ℝ) := h2.1
      _ = (t2 : ℝ) := harc2

/-- Convert a radian bracket of `θ` into a degree enclosure of
`2·θ·180/π`, with the division by `π` bounded through `piLoQ`/`piHiQ`. -/
theorem deg_bound {θ : ℝ} {t1 t2 : ℚ} (lo hi : ℚ)
    (hθ : In θ t1 t2) (h1 : 0 ≤ t1) (hlo : 0 ≤ lo) (hhi : 0 ≤ hi)
    (hA : ratMul lo piHiQ ≤ ratMul (mkRat 360 1) t1)
    (hB : ratMul (mkRat 360 1) t2 ≤ ratMul hi piLoQ) :
    In (2 * θ * 180 / Real.pi) lo hi := by
  have h360 : (mkRat 360 1 : ℚ) = 360 := by norm_num [Rat.mkRat_eq_div]
  have hAR : (lo : ℝ) * ((piHiQ : ℚ) : ℝ) ≤ 360 * (t1 : ℝ) := by
    have := hA
    rw [ratMul_eq, ratMul_eq, h360] at this
    exact_mod_cast this
  have hBR : (360 : ℝ) * (t2 : ℝ) ≤ (hi : ℝ) * ((piLoQ : ℚ) : ℝ) := by
    have := hB
    rw [ratMul_eq, ratMul_eq, h360] at this
    exact_mod_cast this
  have hloR : (0 : ℝ) ≤ (lo : ℝ) := by exact_mod_cast hlo
  have ht1R : (0 : ℝ) ≤ (t1 : ℝ) := by exact_mod_cast h1
  have hpi := Real.pi_pos
  constructor
  · rw [le_div_iff₀ hpi]
    have hstep : (lo : ℝ) * Real.pi ≤ (lo : ℝ) * ((piHiQ : ℚ) : ℝ) :=
      mul_le_mul_of_nonneg_left pi_lt_piHiQ.le hloR
    nlinarith [hθ.1]
  · rw [div_le_iff₀ hpi]
    have hstep : (hi : ℝ) * ((piLoQ : ℚ) : ℝ) ≤ (hi : ℝ) * Real.pi :=
      mul_le_mul_of_nonneg_left piLoQ_lt_pi.le (by exact_mod_cast hhi)
    nlinarith [hθ.2]

/-! ### `Star.angular_distance` -/

/-- Modelled from the spec: the great-circle separation in degrees of
two sky positions given in degrees, by the haversine formula — the
coordinates are converted to radians for the computation and the result
is converted back to degrees. -/
noncomputable def haversine (ra1 dec1 ra2 dec2 : ℝ) : ℝ :=
  2 * Real.arcsin (Real.sqrt (
    Real.sin ((dec2 - dec1) / 2 * Real.pi / 180) ^ 2 +
    Real.cos (dec1 * Real.pi / 180) * Real.cos (dec2 * Real.pi / 180) *
      Real.sin ((ra2 - ra1) / 2 * Real.pi / 180) ^ 2)) * 180 / Real.pi

/-- Modelled from the spec: `Star.angular_distance(other)` — the
great-circle separation of the two stars' sky positions. -/
noncomputable def AstroStar.angular_distance (s t : AstroStar) : ℝ :=
  haversine (s.alpha : ℝ) (s.delta : ℝ) (t.alpha : ℝ) (t.delta : ℝ)

set_option maxRecDepth 1000000 in
set_option maxHeartbeats 4000000 in
/-- **C8**: `Star.angular_distance` matches the spec's reference values
to at least 6 significant decimal digits, regardless of all other
(randomly chosen) star fields: for sky positions `(100.2, -16.58)` and
`(87.5, 7.38)` it lies within `5·10⁻⁵` degrees of `27.054384870767787`,
and for `(165.458, 56.3825)` and `(165.933, 61.7511)` within `5·10⁻⁶`
degrees of `5.374111607543190`. -/
theorem Star_angular_distance_refvalues (s1 s2 s3 s4 : AstroStar)
    (ha1 : s1.alpha = mkRat 1002 10) (hd1 : s1.delta = mkRat (-1658) 100)
    (ha2 : s2.alpha = mkRat 875 10) (hd2 : s2.delta = mkRat 738 100)
    (ha3 : s3.alpha = mkRat 165458 1000) (hd3 : s3.delta = mkRat 563825 10000)
    (ha4 : s4.alpha = mkRat 165933 1000) (hd4 : s4.delta = mkRat 617511 10000) :
    |AstroStar.angular_distance s1 s2 - 27.054384870767787| < 5e-5 ∧
    |AstroStar.angular_distance s3 s4 - 5.374111607543190| < 5e-6 := by
  constructor
  · simp only [AstroStar.angular_distance, haversine]
    have eA1 : ((s2.delta : ℝ) - (s1.delta : ℝ)) / 2 * Real.pi / 180 =
        ((mkRat 599 9000 : ℚ) : ℝ) * Real.pi := by
      rw [hd1, hd2, cast_mkRat, cast_mkRat, cast_mkRat]
      push_cast
      ring
    have eD11 : (s1.delta : ℝ) * Real.pi / 180 =
        -(((mkRat 829 9000 : ℚ) : ℝ) * Real.pi) := by
      rw [hd1, cast_mkRat, cast_mkRat]
      push_cast
      ring
    have eD21 : (s2.delta : ℝ) * Real.pi / 180 =
        ((mkRat 41 1000 : ℚ) : ℝ) * Real.pi := by
      rw [hd2, cast_mkRat, cast_mkRat]
      push_cast
      ring
    have eB1 : ((s2.alpha : ℝ) - (s1.alpha : ℝ)) / 2 * Real.pi / 180 =
        -(((mkRat 127 3600 : ℚ) : ℝ) * Real.pi) := by
      rw [ha2, ha1, cast_mkRat, cast_mkRat, cast_mkRat]
      push_cast
      ring
    rw [eA1, eD11, eD21, eB1, Real.cos_neg, Real.sin_neg, neg_sq]
    have bA1x1 := sinCosRefine_sound 6 (mkRat 209090444388920683 1000000000000000000) (by decide) (by decide) (by decide)
    have bA1x2 := sinCosRefine_sound 6 (mkRat 52272611097230171 250000000000000000) (by decide) (by decide) (by decide)
    have hA1 := sinCosIn_pi_mul (mkRat 599 9000) (mkRat 209090444388920683 1000000000000000000) (mkRat 52272611097230171 250000000000000000) _ _
      bA1x1 bA1x2 (by decide) (by decide) (by decide) (by decide) (by decide)
    have bD11x1 := sinCosRefine_sound 6 (mkRat 289375589980659843 1000000000000000000) (by decide) (by decide) (by decide)
    have bD11x2 := sinCosRefine_sound 6 (mkRat 72343897495164961 250000000000000000) (by decide) (by decide) (by decide)
    have hD11 := sinCosIn_pi_mul (mkRat 829 9000) (mkRat 289375589980659843 1000000000000000000) (mkRat 72343897495164961 250000000000000000) _ _
      bD11x1 bD11x2 (by decide) (by decide) (by decide) (by decide) (by decide)
    have bD21x1 := sinCosRefine_sound 6 (mkRat 64402649398590761 500000000000000000) (by decide) (by decide) (by decide)
    have bD21x2 := sinCosRefine_sound 6 (mkRat 128805298797181523 1000000000000000000) (by decide) (by decide) (by decide)
    have hD21 := sinCosIn_pi_mul (mkRat 41 1000) (mkRat 64402649398590761 500000000000000000) (mkRat 128805298797181523 1000000000000000000) _ _
      bD21x1 bD21x2 (by decide) (by decide) (by decide) (by decide) (by decide)
    have bB1x1 := sinCosRefine_sound 6 (mkRat 13853550937704991 125000000000000000) (by decide) (by decide) (by decide)
    have bB1x2 := sinCosRefine_sound 6 (mkRat 110828407501639929 1000000000000000000) (by decide) (by decide) (by decide)
    have hB1 := sinCosIn_pi_mul (mkRat 127 3600) (mkRat 13853550937704991 125000000000000000) (mkRat 110828407501639929 1000000000000000000) _ _
      bB1x1 bB1x2 (by decide) (by decide) (by decide) (by decide) (by decide)
    have hsinA1 : In (Real.sin (((mkRat 599 9000 : ℚ) : ℝ) * Real.pi)) (mkRat 207570239849007 1000000000000000) (mkRat 51892560154127 250000000000000) :=
      In.weaken ⟨hA1.1, hA1.2.1⟩ (by decide) (by decide)
    have hcosD11 : In (Real.cos (((mkRat 829 9000 : ℚ) : ℝ) * Real.pi)) (mkRat 958422239728443 1000000000000000) (mkRat 958422240538361 1000000000000000) :=
      In.weaken ⟨hD11.2.2.1, hD11.2.2.2⟩ (by decide) (by decide)
    have hcosD21 : In (Real.cos (((mkRat 41 1000 : ℚ) : ℝ) * Real.pi)) (mkRat 495858030051759 500000000000000) (mkRat 198343212023527 200000000000000) :=
      In.weaken ⟨hD21.2.2.1, hD21.2.2.2⟩ (by decide) (by decide)
    have hsinB1 : In (Real.sin (((mkRat 127 3600 : ℚ) : ℝ) * Real.pi)) (mkRat 13825207966567 125000000000000) (mkRat 55300831896357 500000000000000) :=
      In.weaken ⟨hB1.1, hB1.2.1⟩ (by decide) (by decide)
    have hH1 : In (Real.sin (((mkRat 599 9000 : ℚ) : ℝ) * Real.pi) ^ 2 +
        Real.cos (((mkRat 829 9000 : ℚ) : ℝ) * Real.pi) * Real.cos (((mkRat 41 1000 : ℚ) : ℝ) * Real.pi) *
          Real.sin (((mkRat 127 3600 : ℚ) : ℝ) * Real.pi) ^ 2) (mkRat 547124011645632413466028657 10000000000000000000000000000) (mkRat 54712401505827339075374919 1000000000000000000000000000) :=
      In.weaken
        (In.addI (In.sqNN hsinA1 (by decide))
          (In.mulNN (In.mulNN hcosD11 hcosD21 (by decide) (by decide))
            (In.sqNN hsinB1 (by decide)) (by decide) (by decide)))
        (by decide) (by decide)
    have hsqrt1 : In (Real.sqrt (Real.sin (((mkRat 599 9000 : ℚ) : ℝ) * Real.pi) ^ 2 +
        Real.cos (((mkRat 829 9000 : ℚ) : ℝ) * Real.pi) * Real.cos (((mkRat 41 1000 : ℚ) : ℝ) * Real.pi) *
          Real.sin (((mkRat 127 3600 : ℚ) : ℝ) * Real.pi) ^ 2)) (mkRat 29238352692931 125000000000000) (mkRat 58476705568239 250000000000000) :=
      In.sqrtI hH1 (by decide) (by decide) (by decide) (by decide)
    have bt11 := sinCosRefine_sound 6 (mkRat 59023511043 250000000000) (by decide) (by decide) (by decide)
    have bt21 := sinCosRefine_sound 6 (mkRat 236094048923 1000000000000) (by decide) (by decide) (by decide)
    have harc1 := arcsin_bracket hsqrt1 bt11 bt21 (by decide) (by decide)
      (by decide) (by decide) (by decide)
    have hdeg1 := deg_bound (mkRat 27054384598361 1000000000000) (mkRat 27054385142987 1000000000000) harc1
      (by decide) (by decide) (by decide) (by decide) (by decide)
    obtain ⟨hl1, hr1⟩ := hdeg1
    rw [cast_mkRat] at hl1
    rw [cast_mkRat] at hr1
    rw [abs_sub_lt_iff]
    constructor
    · norm_num at hr1 ⊢
      linarith
    · norm_num at hl1 ⊢
      linarith
  · simp only [AstroStar.angular_distance, haversine]
    have eA2 : ((s4.delta : ℝ) - (s3.delta : ℝ)) / 2 * Real.pi / 180 =
        ((mkRat 26843 1800000 : ℚ) : ℝ) * Real.pi := by
      rw [hd3, hd4, cast_mkRat, cast_mkRat, cast_mkRat]
      push_cast
      ring
    have eD12 : (s3.delta : ℝ) * Real.pi / 180 =
        ((mkRat 22553 72000 : ℚ) : ℝ) * Real.pi := by
      rw [hd3, cast_mkRat, cast_mkRat]
      push_cast
      ring
    have eD22 : (s4.delta : ℝ) * Real.pi / 180 =
        ((mkRat 205837 600000 : ℚ) : ℝ) * Real.pi := by
      rw [hd4, cast_mkRat, cast_mkRat]
      push_cast
      ring
    have eB2 : ((s4.alpha : ℝ) - (s3.alpha : ℝ)) / 2 * Real.pi / 180 =
        ((mkRat 19 14400 : ℚ) : ℝ) * Real.pi := by
      rw [ha4, ha3, cast_mkRat, cast_mkRat, cast_mkRat]
      push_cast
      ring
    rw [eA2, eD12, eD22, eB2]
    have bA2x1 := sinCosRefine_sound 6 (mkRat 11712468277820947 250000000000000000) (by decide) (by decide) (by decide)
    have bA2x2 := sinCosRefine_sound 6 (mkRat 46849873111283789 1000000000000000000) (by decide) (by decide) (by decide)
    have hA2 := sinCosIn_pi_mul (mkRat 26843 1800000) (mkRat 11712468277820947 250000000000000000) (mkRat 46849873111283789 1000000000000000000) _ _
      bA2x1 bA2x2 (by decide) (by decide) (by decide) (by decide) (by decide)
    have bD12x1 := sinCosRefine_sound 6 (mkRat 984060265505702873 1000000000000000000) (by decide) (by decide) (by decide)
    have bD12x2 := sinCosRefine_sound 6 (mkRat 492030132752851437 500000000000000000) (by decide) (by decide) (by decide)
    have hD12 := sinCosIn_pi_mul (mkRat 22553 72000) (mkRat 984060265505702873 1000000000000000000) (mkRat 492030132752851437 500000000000000000) _ _
      bD12x1 bD12x2 (by decide) (by decide) (by decide) (by decide) (by decide)
    have bD22x1 := sinCosRefine_sound 6 (mkRat 1077760011728270451 1000000000000000000) (by decide) (by decide) (by decide)
    have bD22x2 := sinCosRefine_sound 6 (mkRat 269440002932067613 250000000000000000) (by decide) (by decide) (by decide)
    have hD22 := sinCosIn_pi_mul (mkRat 205837 600000) (mkRat 1077760011728270451 1000000000000000000) (mkRat 269440002932067613 250000000000000000) _ _
      bD22x1 bD22x2 (by decide) (by decide) (by decide) (by decide) (by decide)
    have bB2x1 := sinCosRefine_sound 6 (mkRat 1036289243371633 250000000000000000) (by decide) (by decide) (by decide)
    have bB2x2 := sinCosRefine_sound 6 (mkRat 4145156973486533 1000000000000000000) (by decide) (by decide) (by decide)
    have hB2 := sinCosIn_pi_mul (mkRat 19 14400) (mkRat 1036289243371633 250000000000000000) (mkRat 4145156973486533 1000000000000000000) _ _
      bB2x1 bB2x2 (by decide) (by decide) (by decide) (by decide) (by decide)
    have hsinA2 : In (Real.sin (((mkRat 26843 1800000 : ℚ) : ℝ) * Real.pi)) (mkRat 46832736443839 1000000000000000) (mkRat 46832736445757 1000000000000000) :=
      In.weaken ⟨hA2.1, hA2.2.1⟩ (by decide) (by decide)
    have hcosD12 : In (Real.cos (((mkRat 22553 72000 : ℚ) : ℝ) * Real.pi)) (mkRat 27682287063987 50000000000000) (mkRat 138411528197911 250000000000000) :=
      In.weaken ⟨hD12.2.2.1, hD12.2.2.2⟩ (by decide) (by decide)
    have hcosD22 : In (Real.cos (((mkRat 205837 600000 : ℚ) : ℝ) * Real.pi)) (mkRat 473302466153521 1000000000000000) (mkRat 236651525955799 500000000000000) :=
      In.weaken ⟨hD22.2.2.1, hD22.2.2.2⟩ (by decide) (by decide)
    have hsinB2 : In (Real.sin (((mkRat 19 14400 : ℚ) : ℝ) * Real.pi)) (mkRat 4145145102923 1000000000000000) (mkRat 1036286275731 250000000000000) :=
      In.weaken ⟨hB2.1, hB2.2.1⟩ (by decide) (by decide)
    have hH2 : In (Real.sin (((mkRat 26843 1800000 : ℚ) : ℝ) * Real.pi) ^ 2 +
        Real.cos (((mkRat 22553 72000 : ℚ) : ℝ) * Real.pi) * Real.cos (((mkRat 205837 600000 : ℚ) : ℝ) * Real.pi) *
          Real.sin (((mkRat 19 14400 : ℚ) : ℝ) * Real.pi) ^ 2) (mkRat 21978076663789297407572251 10000000000000000000000000000) (mkRat 21978076751521049040303537 10000000000000000000000000000) :=
      In.weaken
        (In.addI (In.sqNN hsinA2 (by decide))
          (In.mulNN (In.mulNN hcosD12 hcosD22 (by decide) (by decide))
            (In.sqNN hsinB2 (by decide)) (by decide) (by decide)))
        (by decide) (by decide)
    have hsqrt2 : In (Real.sqrt (Real.sin (((mkRat 26843 1800000 : ℚ) : ℝ) * Real.pi) ^ 2 +
        Real.cos (((mkRat 22553 72000 : ℚ) : ℝ) * Real.pi) * Real.cos (((mkRat 205837 600000 : ℚ) : ℝ) * Real.pi) *
          Real.sin (((mkRat 19 14400 : ℚ) : ℝ) * Real.pi) ^ 2)) (mkRat 46880781418167 1000000000000000) (mkRat 46880781511757 1000000000000000) :=
      In.sqrtI hH2 (by decide) (by decide) (by decide) (by decide)
    have bt12 := sinCosRefine_sound 6 (mkRat 23448984457 500000000000) (by decide) (by decide) (by decide)
    have bt22 := sinCosRefine_sound 6 (mkRat 46897973009 1000000000000) (by decide) (by decide) (by decide)
    have harc2 := arcsin_bracket hsqrt2 bt12 bt22 (by decide) (by decide)
      (by decide) (by decide) (by decide)
    have hdeg2 := deg_bound (mkRat 1074822274583 200000000000) (mkRat 5374111842369 1000000000000) harc2
      (by decide) (by decide) (by decide) (by decide) (by decide)
    obtain ⟨hl2, hr2⟩ := hdeg2
    rw [cast_mkRat] at hl2
    rw [cast_mkRat] at hr2
    rw [abs_sub_lt_iff]
    constructor
    · norm_num at hr2 ⊢
      linarith
    · norm_num at hl2 ⊢
      linarith

/-- Star at sky position `(100.2, -16.58)` (other fields arbitrary). -/
def c8StarA : AstroStar :=
  { x := mkRat 0 1, y := mkRat 0 1, alpha := mkRat 1002 10, delta := mkRat (-1658) 100,
    area := mkRat 0 1, mag := mkRat 0 1, saturated := false, snr := mkRat 0 1,
    fwhm := mkRat 0 1, elongation := mkRat 0 1 }

/-- Star at sky position `(87.5, 7.38)` (other fields arbitrary). -/
def c8StarB : AstroStar :=
  { x := mkRat 1 1, y := mkRat 2 1, alpha := mkRat 875 10, delta := mkRat 738 100,
    area := mkRat 3 1, mag := mkRat 4 1, saturated := true, snr := mkRat 5 1,
    fwhm := mkRat 6 1, elongation := mkRat 7 1 }

/-- Star at sky position `(165.458, 56.3825)` — Merak. -/
def c8StarC : AstroStar :=
  { x := mkRat 0 1, y := mkRat 0 1, alpha := mkRat 165458 1000, delta := mkRat 563825 10000,
    area := mkRat 0 1, mag := mkRat 0 1, saturated := false, snr := mkRat 0 1,
    fwhm := mkRat 0 1, elongation := mkRat 0 1 }

/-- Star at sky position `(165.933, 61.7511)` — Dubhe. -/
def c8StarD : AstroStar :=
  { x := mkRat 0 1, y := mkRat 0 1, alpha := mkRat 165933 1000, delta := mkRat 617511 10000,
    area := mkRat 0 1, mag := mkRat 0 1, saturated := false, snr := mkRat 0 1,
    fwhm := mkRat 0 1, elongation := mkRat 0 1 }

/-- **C8** witness: the reference-value bounds at four concrete
stars. -/
theorem Star_angular_distance_refvalues_witness :
    |AstroStar.angular_distance c8StarA c8StarB - 27.054384870767787| < 5e-5 ∧
    |AstroStar.angular_distance c8StarC c8StarD - 5.374111607543190| < 5e-6 :=
  Star_angular_distance_refvalues c8StarA c8StarB c8StarC c8StarD
    rfl rfl rfl rfl rfl rfl rfl rfl
